import Mathlib

/-!
Verification development for the ONNC `ComputeGraph` container
(src/lib/IR/ComputeGraph.cpp): the doubly-linked node sequence, the
intrusive fan-in/fan-out arc chains, value erasure, and the stable
topological sort (`ComputeGraph::topologicalSort`).

The C++ state is embedded shallowly: node and arc identities become `Nat`,
pointer fields become `Option Nat`-valued maps, and the `std` containers
(`unordered_map`, `priority_queue`, `vector`) become association lists and
plain lists.  Every definition mirrors the statement order of the C++ it
embeds; definitions that embed code outside `src/` (only its callers are
shown) carry a `Modelled from the spec:` doc comment.
-/

set_option maxHeartbeats 1000000

namespace ONNC

abbrev NodeId := Nat

abbrev ValueId := Nat

/-- The data `ComputeGraph::topologicalSort` reads: `seq` is the node
sequence yielded by `begin()`/`end()` (head to rear); `inputs n` are the
values occupying node `n`'s input slots, `outputs n` the values it
produces, and `users v` the user nodes on value `v`'s use list
(`Value::getUses`, one entry per consuming input slot). -/
structure KGraph where
  seq : List NodeId
  inputs : NodeId → List ValueId
  outputs : NodeId → List ValueId
  users : ValueId → List NodeId

/-- Modelled from the spec: `ComputeOperator::getNumOfInputs` is not under
`src/`; per the data model (§3) a node carries an "ordered list of input
slots", and this accessor returns their count. -/
def getNumOfInputs (g : KGraph) (n : NodeId) : Nat :=
  (g.inputs n).length

/-- The `in_degree` unordered map (value-initialized entries default to 0). -/
abbrev DegMap := List (NodeId × Int)

/-- The `orig_index` unordered map. -/
abbrev IdxMap := List (NodeId × Nat)

/-- The contents of the `std::priority_queue<std::pair<int, Node*>>`. -/
abbrev PQ := List (Nat × NodeId)

def degGet : DegMap → NodeId → Int
  | [], _ => 0
  | (k, v) :: rest, n => if k = n then v else degGet rest n

/-- The write `in_degree[n] -= 1` (inserting a fresh zero entry first when
the key is absent, as `operator[]` does). -/
def degDec : DegMap → NodeId → DegMap
  | [], n => [(n, -1)]
  | (k, v) :: rest, n => if k = n then (k, v - 1) :: rest else (k, v) :: degDec rest n

/-- The write `in_degree[n] = x`. -/
def degSet : DegMap → NodeId → Int → DegMap
  | [], n, x => [(n, x)]
  | (k, v) :: rest, n, x => if k = n then (k, x) :: rest else (k, v) :: degSet rest n x

def idxGet : IdxMap → NodeId → Nat
  | [], _ => 0
  | (k, v) :: rest, n => if k = n then v else idxGet rest n

/-- The write `orig_index[n] = i`. -/
def idxSet : IdxMap → NodeId → Nat → IdxMap
  | [], n, x => [(n, x)]
  | (k, v) :: rest, n, x => if k = n then (k, x) :: rest else (k, v) :: idxSet rest n x

/-- The strict-weak order of the min-heap: `std::greater` on
`std::pair<int, Node*>` compares lexicographically, so the heap's top is
the lexicographically least pair. -/
def pairLe (p q : Nat × NodeId) : Prop :=
  p.1 < q.1 ∨ (p.1 = q.1 ∧ p.2 ≤ q.2)

instance (p q : Nat × NodeId) : Decidable (pairLe p q) := by
  unfold pairLe; infer_instance

/-- `queue.top()`: the least pair currently in the priority queue. -/
def pqMin : PQ → Option (Nat × NodeId)
  | [] => none
  | p :: rest =>
    match pqMin rest with
    | none => some p
    | some m => if pairLe p m then some p else some m

/-- `queue.pop()`: removal of the extracted element (the first occurrence
of the least pair). -/
def pqRemove : PQ → (Nat × NodeId) → PQ
  | [], _ => []
  | p :: rest, m => if p = m then rest else p :: pqRemove rest m

theorem pqRemove_length {q : PQ} {m : Nat × NodeId} (h : m ∈ q) :
    (pqRemove q m).length = q.length - 1 := by
  induction q with
  | nil => simp at h
  | cons p rest ih =>
    by_cases hp : p = m
    · simp [pqRemove, hp]
    · have hm : m ∈ rest := by
        rcases List.mem_cons.mp h with rfl | hh
        · exact absurd rfl hp
        · exact hh
      have hlen : 1 ≤ rest.length := List.length_pos.mpr (List.ne_nil_of_mem hm)
      simp only [pqRemove, if_neg hp, List.length_cons, ih hm]
      omega

theorem pqRemove_subset {q : PQ} {m p : Nat × NodeId} (hp : p ∈ pqRemove q m) :
    p ∈ q := by
  induction q with
  | nil => simp [pqRemove] at hp
  | cons x rest ih =>
    by_cases hx : x = m
    · rw [pqRemove, if_pos hx] at hp
      exact List.mem_cons_of_mem _ hp
    · rw [pqRemove, if_neg hx] at hp
      rcases List.mem_cons.mp hp with rfl | hh
      · exact List.mem_cons_self _ _
      · exact List.mem_cons_of_mem _ (ih hh)

theorem mem_pqRemove {q : PQ} {m p : Nat × NodeId} (hne : p ≠ m) (hp : p ∈ q) :
    p ∈ pqRemove q m := by
  induction q with
  | nil => simp at hp
  | cons x rest ih =>
    by_cases hx : x = m
    · rw [pqRemove, if_pos hx]
      rcases List.mem_cons.mp hp with rfl | hh
      · exact absurd hx hne
      · exact hh
    · rw [pqRemove, if_neg hx]
      rcases List.mem_cons.mp hp with rfl | hh
      · exact List.mem_cons_self _ _
      · exact List.mem_cons_of_mem _ (ih hh)

theorem perm_pqRemove {q : PQ} {m : Nat × NodeId} (h : m ∈ q) :
    List.Perm q (m :: pqRemove q m) := by
  induction q with
  | nil => simp at h
  | cons x rest ih =>
    by_cases hx : x = m
    · subst hx
      rw [pqRemove, if_pos rfl]
    · have hm : m ∈ rest := by
        rcases List.mem_cons.mp h with rfl | hh
        · exact absurd rfl hx
        · exact hh
      rw [pqRemove, if_neg hx]
      exact (List.Perm.cons x (ih hm)).trans (List.Perm.swap m x (pqRemove rest m))

/-- Lines 231-235: `in_degree[n] -= 1; if (in_degree[n] == 0)
queue.push(QueueElem(orig_index[n], n));`. -/
def stepUse (o : IdxMap) (st : DegMap × PQ) (n : NodeId) : DegMap × PQ :=
  let d' := degDec st.1 n
  if degGet d' n = 0 then (d', st.2 ++ [(idxGet o n, n)]) else (d', st.2)

/-- The stream of users visited by the nested loops at lines 229-231: for
each output slot `i` of `node`, each `use.getUser()` on that output's use
list, in order. -/
def outUses (g : KGraph) (n : NodeId) : List NodeId :=
  ((g.outputs n).map g.users).flatten

/-- The body of the extraction loop that processes one popped node's
outputs (lines 229-237). -/
def processNode (g : KGraph) (o : IdxMap) (n : NodeId) (st : DegMap × PQ) : DegMap × PQ :=
  (outUses g n).foldl (stepUse o) st

/-- Count of strictly positive entries of the degree map; together with the
queue length it is the termination measure of the extraction loop. -/
def posCount (d : DegMap) : Nat :=
  (d.filter (fun p => 0 < p.2)).length

theorem degGet_degDec_self (d : DegMap) (n : NodeId) :
    degGet (degDec d n) n = degGet d n - 1 := by
  induction d with
  | nil => simp [degDec, degGet]
  | cons p rest ih =>
    obtain ⟨k, v⟩ := p
    by_cases h : k = n
    · simp [degDec, degGet, h]
    · simp [degDec, degGet, h, ih]

theorem posCount_cons (k : NodeId) (v : Int) (rest : DegMap) :
    posCount ((k, v) :: rest) = (if 0 < v then 1 else 0) + posCount rest := by
  by_cases hv : 0 < v <;> simp [posCount, List.filter_cons, hv] <;> omega

theorem posCount_degDec (d : DegMap) (n : NodeId) :
    posCount (degDec d n) + (if degGet d n = 1 then 1 else 0) = posCount d := by
  induction d with
  | nil => simp [degDec, degGet, posCount]
  | cons p rest ih =>
    obtain ⟨k, v⟩ := p
    by_cases h : k = n
    · subst h
      have h1 : degDec ((k, v) :: rest) k = (k, v - 1) :: rest := by simp [degDec]
      have h2 : degGet ((k, v) :: rest) k = v := by simp [degGet]
      rw [h1, h2, posCount_cons, posCount_cons]
      split_ifs <;> omega
    · simp only [degDec, degGet, if_neg h, posCount_cons]
      omega

theorem stepUse_measure (o : IdxMap) (st : DegMap × PQ) (n : NodeId) :
    (stepUse o st n).2.length + posCount (stepUse o st n).1
      = st.2.length + posCount st.1 := by
  obtain ⟨d, q⟩ := st
  have hdec := posCount_degDec d n
  have hget := degGet_degDec_self d n
  by_cases h : degGet (degDec d n) n = 0
  · have h1 : degGet d n = 1 := by omega
    simp only [stepUse, h, if_pos, List.length_append, List.length_cons, List.length_nil]
    simp [h1] at hdec
    omega
  · have h1 : degGet d n ≠ 1 := by omega
    simp only [stepUse, h, if_neg, not_false_iff]
    simp [h1] at hdec
    omega

theorem foldl_stepUse_measure (o : IdxMap) (us : List NodeId) (st : DegMap × PQ) :
    (us.foldl (stepUse o) st).2.length + posCount (us.foldl (stepUse o) st).1
      = st.2.length + posCount st.1 := by
  induction us generalizing st with
  | nil => rfl
  | cons u rest ih =>
    simp only [List.foldl_cons]
    rw [ih (stepUse o st u), stepUse_measure]

theorem processNode_measure (g : KGraph) (o : IdxMap) (n : NodeId) (st : DegMap × PQ) :
    (processNode g o n st).2.length + posCount (processNode g o n st).1
      = st.2.length + posCount st.1 :=
  foldl_stepUse_measure o (outUses g n) st

theorem pairLe_refl (p : Nat × NodeId) : pairLe p p :=
  Or.inr ⟨rfl, le_refl _⟩

theorem pairLe_total (p q : Nat × NodeId) : pairLe p q ∨ pairLe q p := by
  rcases Nat.lt_trichotomy p.1 q.1 with h | h | h
  · exact Or.inl (Or.inl h)
  · rcases Nat.le_total p.2 q.2 with h2 | h2
    · exact Or.inl (Or.inr ⟨h, h2⟩)
    · exact Or.inr (Or.inr ⟨h.symm, h2⟩)
  · exact Or.inr (Or.inl h)

theorem pairLe_trans {p q r : Nat × NodeId} (h1 : pairLe p q) (h2 : pairLe q r) :
    pairLe p r := by
  rcases h1 with h1 | ⟨h1, h1'⟩ <;> rcases h2 with h2 | ⟨h2, h2'⟩
  · exact Or.inl (h1.trans h2)
  · exact Or.inl (h2 ▸ h1)
  · exact Or.inl (h1 ▸ h2)
  · exact Or.inr ⟨h1.trans h2, h1'.trans h2'⟩

theorem pqMin_mem {q : PQ} {m : Nat × NodeId} (h : pqMin q = some m) : m ∈ q := by
  induction q with
  | nil => simp [pqMin] at h
  | cons p rest ih =>
    simp only [pqMin] at h
    cases hr : pqMin rest with
    | none => simp [hr] at h; simp [h]
    | some m' =>
      simp only [hr] at h
      by_cases hle : pairLe p m'
      · simp [hle] at h; simp [h]
      · simp [hle] at h
        exact List.mem_cons_of_mem _ (ih (by rw [hr, h]))

theorem pqMin_le {q : PQ} {m : Nat × NodeId} (h : pqMin q = some m) :
    ∀ p ∈ q, pairLe m p := by
  induction q generalizing m with
  | nil => simp [pqMin] at h
  | cons p rest ih =>
    intro x hx
    simp only [pqMin] at h
    cases hr : pqMin rest with
    | none =>
      simp only [hr] at h
      cases rest with
      | nil =>
        rcases List.mem_cons.mp hx with rfl | hx'
        · injection h with h; subst h; exact pairLe_refl x
        · simp at hx'
      | cons a b =>
        exfalso
        simp only [pqMin] at hr
        cases hb : pqMin b <;> simp [hb] at hr <;> split at hr <;> simp_all
    | some m' =>
      simp only [hr] at h
      rcases List.mem_cons.mp hx with rfl | hx'
      · by_cases hle : pairLe x m'
        · simp [hle] at h; subst h; exact pairLe_refl x
        · simp [hle] at h; subst h
          rcases pairLe_total x m' with hl | hl
          · exact absurd hl hle
          · exact hl
      · by_cases hle : pairLe p m'
        · simp [hle] at h; subst h
          exact pairLe_trans hle (ih hr x hx')
        · simp [hle] at h; subst h
          exact ih hr x hx'

/-- The extraction loop (lines 226-239): while the queue is nonempty, pop
the least `(orig_index, node)` pair, decrement the in-degree of every user
of the popped node's outputs (pushing those that reach zero), and append
the popped node to the output vector `nodes`. -/
def kahnLoop (g : KGraph) (o : IdxMap) (d : DegMap) (q : PQ) (acc : List NodeId) :
    List NodeId :=
  match h : pqMin q with
  | none => acc
  | some m =>
    kahnLoop g o (processNode g o m.2 (d, pqRemove q m)).1
      (processNode g o m.2 (d, pqRemove q m)).2 (acc ++ [m.2])
termination_by q.length + posCount d
decreasing_by
  have hmem := pqMin_mem h
  have hlen : (pqRemove q m).length = q.length - 1 := pqRemove_length hmem
  have hms := processNode_measure g o m.2 (d, pqRemove q m)
  have hq : 1 ≤ q.length := List.length_pos.mpr (List.ne_nil_of_mem hmem)
  simp only at hms
  omega

/-- The initialization loop (lines 216-223): record each node's in-degree
and original index, seeding the queue with the zero-in-degree nodes in
sequence order. -/
def kahnInitGo (g : KGraph) : List NodeId → Nat → DegMap × IdxMap × PQ → DegMap × IdxMap × PQ
  | [], _, st => st
  | n :: rest, i, (d, o, q) =>
    let d' := degSet d n (getNumOfInputs g n)
    let q' := if degGet d' n = 0 then q ++ [(i, n)] else q
    kahnInitGo g rest (i + 1) (d', idxSet o n i, q')

/-- `ComputeGraph::topologicalSort`, lines 205-239: the computation of the
output vector `nodes` (the write-back of the `prev`/`next` links is
modelled separately on the pointer-level state). -/
def topoOrder (g : KGraph) : List NodeId :=
  let st := kahnInitGo g g.seq 0 ([], [], [])
  kahnLoop g st.2.1 st.1 st.2.2 []

/-- All values produced by nodes of the sequence, with multiplicity. -/
def allOut (g : KGraph) : List ValueId :=
  (g.seq.map g.outputs).flatten

/-- The number of arcs from `u` to `v`: uses of `u`'s outputs whose user
is `v`. -/
def ec (g : KGraph) (u v : NodeId) : Nat :=
  ((g.outputs u).map (fun w => (g.users w).count v)).sum

/-- A data-flow edge of the graph: `u` is a sequence node and some use of
one of its outputs points at `v`. -/
def Edge (g : KGraph) (u v : NodeId) : Prop :=
  u ∈ g.seq ∧ 0 < ec g u v

instance (g : KGraph) (u v : NodeId) : Decidable (Edge g u v) := by
  unfold Edge; infer_instance

/-- The number of edges into `n` whose source lies in `S`. -/
def usesFrom (g : KGraph) (S : List NodeId) (n : NodeId) : Nat :=
  (S.map (fun m => ec g m n)).sum

/-- Well-formedness of the graph data, following the spec's data model
(§3): the sequence and the produced values have no duplicates (each value
has a single defining node), use lists point back into the sequence, the
use list of a value mirrors the input slots that read it, and every input
slot reads a value produced inside the graph. -/
structure KWf (g : KGraph) : Prop where
  seqNodup : g.seq.Nodup
  outNodup : (allOut g).Nodup
  usersSeq : ∀ v ∈ allOut g, ∀ n ∈ g.users v, n ∈ g.seq
  useCount : ∀ v ∈ allOut g, ∀ n ∈ g.seq, (g.users v).count n = (g.inputs n).count v
  inputsLive : ∀ n ∈ g.seq, ∀ v ∈ g.inputs n, v ∈ allOut g

theorem kwf_iff (g : KGraph) :
    KWf g ↔ (g.seq.Nodup ∧ (allOut g).Nodup ∧
      (∀ v ∈ allOut g, ∀ n ∈ g.users v, n ∈ g.seq) ∧
      (∀ v ∈ allOut g, ∀ n ∈ g.seq, (g.users v).count n = (g.inputs n).count v) ∧
      (∀ n ∈ g.seq, ∀ v ∈ g.inputs n, v ∈ allOut g)) :=
  ⟨fun h => ⟨h.seqNodup, h.outNodup, h.usersSeq, h.useCount, h.inputsLive⟩,
   fun h => ⟨h.1, h.2.1, h.2.2.1, h.2.2.2.1, h.2.2.2.2⟩⟩

instance (g : KGraph) : Decidable (KWf g) :=
  decidable_of_iff _ (kwf_iff g).symm

theorem sum_map_add {α : Type} (L : List α) (f f' : α → Nat) :
    (L.map (fun w => f w + f' w)).sum = (L.map f).sum + (L.map f').sum := by
  induction L with
  | nil => simp
  | cons a t ih => simp [ih]; omega

theorem sum_map_ite_count {α : Type} [DecidableEq α] (L : List α) (x : α) :
    (L.map (fun w => if w = x then 1 else 0)).sum = L.count x := by
  induction L with
  | nil => simp
  | cons a t ih =>
    simp only [List.map_cons, List.sum_cons, ih, List.count_cons, beq_iff_eq]
    by_cases h : a = x
    · subst h
      simp [Nat.add_comm]
    · have h' : ¬ x = a := fun hh => h hh.symm
      simp only [if_neg h, if_neg h']
      omega

theorem sum_count_eq_length {α : Type} [DecidableEq α] :
    ∀ (l' L : List α), L.Nodup → (∀ x ∈ l', x ∈ L) →
      (L.map (fun w => l'.count w)).sum = l'.length := by
  intro l'
  induction l' with
  | nil => intro L _ _; simp
  | cons x t ih =>
    intro L hnd hsub
    have hcc : (L.map (fun w => (x :: t).count w)).sum
        = (L.map (fun w => t.count w + if w = x then 1 else 0)).sum := by
      apply congrArg
      apply List.map_congr_left
      intro a _
      by_cases h : x = a
      · subst h
        simp [List.count_cons]
      · have h' : ¬ a = x := fun hh => h hh.symm
        simp [List.count_cons, h, h']
    rw [hcc, sum_map_add, sum_map_ite_count,
      ih L hnd (fun y hy => hsub y (List.mem_cons_of_mem _ hy)),
      List.count_eq_one_of_mem hnd (hsub x (List.mem_cons_self x t))]
    simp

theorem sum_flatten_map {α : Type} (L : List (List α)) (f : α → Nat) :
    (L.flatten.map f).sum = (L.map (fun l => (l.map f).sum)).sum := by
  induction L with
  | nil => simp
  | cons a t ih =>
    simp only [List.flatten_cons, List.map_append, List.sum_append, List.map_cons,
      List.sum_cons, ih]

/-- On a well-formed graph, a node's input-slot count (what
`topologicalSort` records as the in-degree) is the number of distinct
incoming edges. -/
theorem usesFrom_seq_eq (g : KGraph) (hwf : KWf g) (n : NodeId) (hn : n ∈ g.seq) :
    usesFrom g g.seq n = (g.inputs n).length := by
  have h1 : usesFrom g g.seq n = ((allOut g).map (fun w => (g.users w).count n)).sum := by
    unfold usesFrom ec allOut
    rw [sum_flatten_map, List.map_map]
    rfl
  have h2 : ((allOut g).map (fun w => (g.users w).count n)).sum
      = ((allOut g).map (fun w => (g.inputs n).count w)).sum := by
    apply congrArg
    exact List.map_congr_left (fun v hv => hwf.useCount v hv n hn)
  have h3 := sum_count_eq_length (g.inputs n) (allOut g) hwf.outNodup
    (fun x hx => hwf.inputsLive n hn x hx)
  rw [h1, h2, h3]

theorem kahnLoop_eq_nil (g : KGraph) (o : IdxMap) (d : DegMap) (q : PQ)
    (acc : List NodeId) (hq : pqMin q = none) : kahnLoop g o d q acc = acc := by
  rw [kahnLoop, hq]

theorem kahnLoop_eq_step (g : KGraph) (o : IdxMap) (d : DegMap) (q : PQ)
    (acc : List NodeId) (m : Nat × NodeId) (hq : pqMin q = some m) :
    kahnLoop g o d q acc
      = kahnLoop g o (processNode g o m.2 (d, pqRemove q m)).1
          (processNode g o m.2 (d, pqRemove q m)).2 (acc ++ [m.2]) := by
  rw [kahnLoop, hq]

theorem pqMin_eq_none {q : PQ} (h : pqMin q = none) : q = [] := by
  cases q with
  | nil => rfl
  | cons p rest =>
    exfalso
    simp only [pqMin] at h
    cases hr : pqMin rest <;> simp [hr] at h
    split at h <;> simp_all

theorem kahnLoop_acc (g : KGraph) (o : IdxMap) :
    ∀ (N : Nat) (d : DegMap) (q : PQ) (acc : List NodeId),
      q.length + posCount d ≤ N →
      kahnLoop g o d q acc = acc ++ kahnLoop g o d q [] := by
  intro N
  induction N with
  | zero =>
    intro d q acc hb
    have hq : q = [] := by
      cases q with
      | nil => rfl
      | cons a b => simp at hb
    subst hq
    rw [kahnLoop_eq_nil g o d [] acc rfl, kahnLoop_eq_nil g o d [] [] rfl]
    simp
  | succ N ih =>
    intro d q acc hb
    cases hq : pqMin q with
    | none =>
      rw [kahnLoop_eq_nil g o d q acc hq, kahnLoop_eq_nil g o d q [] hq]
      simp
    | some m =>
      have hmem := pqMin_mem hq
      have hlen : (pqRemove q m).length = q.length - 1 := pqRemove_length hmem
      have hpos : 1 ≤ q.length := List.length_pos.mpr (List.ne_nil_of_mem hmem)
      have hms := processNode_measure g o m.2 (d, pqRemove q m)
      have hb' : (processNode g o m.2 (d, pqRemove q m)).2.length
          + posCount (processNode g o m.2 (d, pqRemove q m)).1 ≤ N := by
        simp only at hms
        omega
      rw [kahnLoop_eq_step g o d q acc m hq, kahnLoop_eq_step g o d q [] m hq]
      rw [ih _ _ (acc ++ [m.2]) hb', ih _ _ ([] ++ [m.2]) hb']
      simp

theorem stepUse_queue_extends (o : IdxMap) (st : DegMap × PQ) (n : NodeId) :
    ∃ t, (stepUse o st n).2 = st.2 ++ t := by
  unfold stepUse
  by_cases h : degGet (degDec st.1 n) n = 0
  · exact ⟨[(idxGet o n, n)], by simp [h]⟩
  · exact ⟨[], by simp [h]⟩

theorem foldl_stepUse_queue_extends (o : IdxMap) :
    ∀ (us : List NodeId) (st : DegMap × PQ),
      ∃ t, (us.foldl (stepUse o) st).2 = st.2 ++ t := by
  intro us
  induction us with
  | nil => exact fun st => ⟨[], by simp⟩
  | cons u rest ih =>
    intro st
    obtain ⟨t1, h1⟩ := stepUse_queue_extends o st u
    obtain ⟨t2, h2⟩ := ih (stepUse o st u)
    exact ⟨t1 ++ t2, by simp [List.foldl_cons, h2, h1]⟩

theorem processNode_queue_extends (g : KGraph) (o : IdxMap) (n : NodeId)
    (st : DegMap × PQ) : ∃ t, (processNode g o n st).2 = st.2 ++ t :=
  foldl_stepUse_queue_extends o (outUses g n) st

theorem kahnLoop_mem (g : KGraph) (o : IdxMap) :
    ∀ (N : Nat) (d : DegMap) (q : PQ) (acc : List NodeId) (p : Nat × NodeId),
      q.length + posCount d ≤ N → p ∈ q → p.2 ∈ kahnLoop g o d q acc := by
  intro N
  induction N with
  | zero =>
    intro d q acc p hb hp
    exfalso
    have := List.length_pos.mpr (List.ne_nil_of_mem hp)
    omega
  | succ N ih =>
    intro d q acc p hb hp
    cases hq : pqMin q with
    | none => exact absurd (pqMin_eq_none hq ▸ hp) (List.not_mem_nil p)
    | some m =>
      have hmem := pqMin_mem hq
      have hlen : (pqRemove q m).length = q.length - 1 := pqRemove_length hmem
      have hpos : 1 ≤ q.length := List.length_pos.mpr (List.ne_nil_of_mem hmem)
      have hms := processNode_measure g o m.2 (d, pqRemove q m)
      have hb' : (processNode g o m.2 (d, pqRemove q m)).2.length
          + posCount (processNode g o m.2 (d, pqRemove q m)).1 ≤ N := by
        simp only at hms
        omega
      rw [kahnLoop_eq_step g o d q acc m hq]
      by_cases hcase : p = m
      · subst hcase
        rw [kahnLoop_acc g o N _ _ _ hb']
        simp
      · have hp' : p ∈ pqRemove q m := mem_pqRemove hcase hp
        obtain ⟨t, ht⟩ := processNode_queue_extends g o m.2 (d, pqRemove q m)
        have hp'' : p ∈ (processNode g o m.2 (d, pqRemove q m)).2 := by
          rw [ht]; exact List.mem_append_left t hp'
        exact ih _ _ _ p hb' hp''

/-- The degree map the initialization loop builds from an empty map. -/
def degInit (g : KGraph) (l : List NodeId) : DegMap :=
  l.map (fun n => (n, (getNumOfInputs g n : Int)))

/-- The index map the initialization loop builds from an empty map. -/
def idxInit : List NodeId → Nat → IdxMap
  | [], _ => []
  | n :: rest, i => (n, i) :: idxInit rest (i + 1)

/-- The queue contents the initialization loop seeds, in push order. -/
def seedQ (g : KGraph) : List NodeId → Nat → PQ
  | [], _ => []
  | n :: rest, i => (if getNumOfInputs g n = 0 then [(i, n)] else []) ++ seedQ g rest (i + 1)

theorem degSet_fresh (d : DegMap) (n : NodeId) (x : Int) (h : ∀ p ∈ d, p.1 ≠ n) :
    degSet d n x = d ++ [(n, x)] := by
  induction d with
  | nil => rfl
  | cons p rest ih =>
    obtain ⟨k, v⟩ := p
    have hk : k ≠ n := h (k, v) (List.mem_cons_self _ _)
    simp only [degSet, if_neg hk, List.cons_append]
    rw [ih (fun p hp => h p (List.mem_cons_of_mem _ hp))]

theorem idxSet_fresh (o : IdxMap) (n : NodeId) (x : Nat) (h : ∀ p ∈ o, p.1 ≠ n) :
    idxSet o n x = o ++ [(n, x)] := by
  induction o with
  | nil => rfl
  | cons p rest ih =>
    obtain ⟨k, v⟩ := p
    have hk : k ≠ n := h (k, v) (List.mem_cons_self _ _)
    simp only [idxSet, if_neg hk, List.cons_append]
    rw [ih (fun p hp => h p (List.mem_cons_of_mem _ hp))]

theorem degGet_degSet_self (d : DegMap) (n : NodeId) (x : Int) :
    degGet (degSet d n x) n = x := by
  induction d with
  | nil => simp [degSet, degGet]
  | cons p rest ih =>
    obtain ⟨k, v⟩ := p
    by_cases h : k = n <;> simp [degSet, degGet, h, ih]

theorem degGet_degDec_ne (d : DegMap) (n x : NodeId) (h : x ≠ n) :
    degGet (degDec d n) x = degGet d x := by
  have h' : ¬ n = x := fun hh => h hh.symm
  induction d with
  | nil => simp [degDec, degGet, h']
  | cons p rest ih =>
    obtain ⟨k, v⟩ := p
    by_cases hk : k = n
    · subst hk
      simp [degDec, degGet, h']
    · simp only [degDec, if_neg hk]
      by_cases hx : k = x <;> simp [degGet, hx, ih]

theorem kahnInitGo_spec (g : KGraph) :
    ∀ (l : List NodeId), l.Nodup →
      ∀ (i : Nat) (d : DegMap) (o : IdxMap) (q : PQ),
      (∀ n ∈ l, ∀ p ∈ d, p.1 ≠ n) → (∀ n ∈ l, ∀ p ∈ o, p.1 ≠ n) →
      kahnInitGo g l i (d, o, q)
        = (d ++ degInit g l, o ++ idxInit l i, q ++ seedQ g l i) := by
  intro l
  induction l with
  | nil => intro _ i d o q _ _; simp [kahnInitGo, degInit, idxInit, seedQ]
  | cons n rest ih =>
    intro hnd i d o q hd ho
    have hdn : ∀ p ∈ d, p.1 ≠ n := hd n (List.mem_cons_self _ _)
    have hon : ∀ p ∈ o, p.1 ≠ n := ho n (List.mem_cons_self _ _)
    have hset := degSet_fresh d n (getNumOfInputs g n : Int) hdn
    have hoset := idxSet_fresh o n i hon
    have hget : degGet (degSet d n (getNumOfInputs g n : Int)) n
        = (getNumOfInputs g n : Int) := degGet_degSet_self d n _
    have hnrest : n ∉ rest := (List.nodup_cons.mp hnd).1
    have hd' : ∀ x ∈ rest, ∀ p ∈ degSet d n (getNumOfInputs g n : Int), p.1 ≠ x := by
      intro x hx p hp
      rw [hset] at hp
      rcases List.mem_append.mp hp with hp | hp
      · exact hd x (List.mem_cons_of_mem _ hx) p hp
      · rcases List.mem_singleton.mp hp with rfl
        intro hh
        simp only at hh
        subst hh
        exact hnrest hx
    have ho' : ∀ x ∈ rest, ∀ p ∈ idxSet o n i, p.1 ≠ x := by
      intro x hx p hp
      rw [hoset] at hp
      rcases List.mem_append.mp hp with hp | hp
      · exact ho x (List.mem_cons_of_mem _ hx) p hp
      · rcases List.mem_singleton.mp hp with rfl
        intro hh
        simp only at hh
        subst hh
        exact hnrest hx
    simp only [kahnInitGo, hget]
    rw [ih (List.nodup_cons.mp hnd).2 (i + 1) _ _ _ hd' ho', hset, hoset]
    by_cases hz : getNumOfInputs g n = 0
    · have hz' : (getNumOfInputs g n : Int) = 0 := by exact_mod_cast hz
      simp [degInit, idxInit, seedQ, hz, hz']
    · have hz' : ¬ (getNumOfInputs g n : Int) = 0 := by exact_mod_cast hz
      simp [degInit, idxInit, seedQ, hz, hz']

theorem degGet_degInit (g : KGraph) (l : List NodeId) (n : NodeId) :
    degGet (degInit g l) n = if n ∈ l then (getNumOfInputs g n : Int) else 0 := by
  induction l with
  | nil => simp [degInit, degGet]
  | cons m rest ih =>
    by_cases h : m = n
    · subst h
      simp [degInit, degGet]
    · have h' : ¬ n = m := fun hh => h hh.symm
      simp only [degInit, List.map_cons, degGet, if_neg h]
      rw [show (rest.map (fun x => (x, (getNumOfInputs g x : Int)))) = degInit g rest from rfl,
        ih]
      simp [List.mem_cons, h']

theorem idxGet_idxInit (l : List NodeId) :
    ∀ (i : Nat) (n : NodeId), n ∈ l → idxGet (idxInit l i) n = i + l.indexOf n := by
  induction l with
  | nil => intro _ n h; exact absurd h (List.not_mem_nil n)
  | cons m rest ih =>
    intro i n hn
    by_cases h : m = n
    · subst h
      simp [idxInit, idxGet, List.indexOf_cons_self]
    · have hn' : n ∈ rest := by
        rcases List.mem_cons.mp hn with rfl | hh
        · exact absurd rfl h
        · exact hh
      simp only [idxInit, idxGet, if_neg h]
      rw [ih (i + 1) n hn', List.indexOf_cons_ne _ h]
      omega

theorem seedQ_map_snd (g : KGraph) :
    ∀ (l : List NodeId) (i : Nat),
      (seedQ g l i).map Prod.snd = l.filter (fun n => getNumOfInputs g n = 0) := by
  intro l
  induction l with
  | nil => intro i; rfl
  | cons n rest ih =>
    intro i
    by_cases h : getNumOfInputs g n = 0 <;>
      simp [seedQ, List.filter_cons, h, ih (i + 1)]

theorem seedQ_mem (g : KGraph) :
    ∀ (l : List NodeId), l.Nodup → ∀ (i : Nat) (p : Nat × NodeId), p ∈ seedQ g l i →
      p.2 ∈ l ∧ p.1 = i + l.indexOf p.2 ∧ getNumOfInputs g p.2 = 0 := by
  intro l
  induction l with
  | nil => intro _ i p hp; simp [seedQ] at hp
  | cons n rest ih =>
    intro hnd i p hp
    have hnrest : n ∉ rest := (List.nodup_cons.mp hnd).1
    by_cases h : getNumOfInputs g n = 0
    · simp only [seedQ, if_pos h, List.cons_append, List.nil_append] at hp
      rcases List.mem_cons.mp hp with rfl | hp'
      · simp [List.indexOf_cons_self, h]
      · obtain ⟨h1, h2, h3⟩ := ih (List.nodup_cons.mp hnd).2 (i + 1) p hp'
        have hne : n ≠ p.2 := fun hh => hnrest (hh ▸ h1)
        refine ⟨List.mem_cons_of_mem _ h1, ?_, h3⟩
        rw [List.indexOf_cons_ne _ hne]
        omega
    · simp only [seedQ, if_neg h, List.nil_append] at hp
      obtain ⟨h1, h2, h3⟩ := ih (List.nodup_cons.mp hnd).2 (i + 1) p hp
      have hne : n ≠ p.2 := fun hh => hnrest (hh ▸ h1)
      refine ⟨List.mem_cons_of_mem _ h1, ?_, h3⟩
      rw [List.indexOf_cons_ne _ hne]
      omega

theorem mem_allOut (g : KGraph) {n : NodeId} {v : ValueId}
    (hn : n ∈ g.seq) (hv : v ∈ g.outputs n) : v ∈ allOut g := by
  unfold allOut
  rw [List.mem_flatten]
  exact ⟨g.outputs n, List.mem_map_of_mem g.outputs hn, hv⟩

theorem count_outUses (g : KGraph) (m n : NodeId) :
    (outUses g m).count n = ec g m n := by
  unfold outUses ec
  induction g.outputs m with
  | nil => simp
  | cons v rest ih => simp [List.count_append, ih]

theorem usesFrom_nil (g : KGraph) (n : NodeId) : usesFrom g [] n = 0 := rfl

theorem usesFrom_append (g : KGraph) (S T : List NodeId) (n : NodeId) :
    usesFrom g (S ++ T) n = usesFrom g S n + usesFrom g T n := by
  unfold usesFrom
  simp [List.sum_append]

theorem sum_map_le (f : NodeId → Nat) :
    ∀ (S L : List NodeId), S.Nodup → (∀ x ∈ S, x ∈ L) →
      (S.map f).sum ≤ (L.map f).sum := by
  intro S
  induction S with
  | nil => intro L _ _; simp
  | cons a S' ih =>
    intro L hnd hsub
    have haL : a ∈ L := hsub a (List.mem_cons_self _ _)
    have hperm : List.Perm L (a :: L.erase a) := List.perm_cons_erase haL
    have hsum : (L.map f).sum = f a + ((L.erase a).map f).sum := by
      rw [(hperm.map f).sum_eq]
      simp
    rw [hsum]
    simp only [List.map_cons, List.sum_cons]
    have hS' : ∀ x ∈ S', x ∈ L.erase a := by
      intro x hx
      have hxa : x ≠ a := fun hh => (List.nodup_cons.mp hnd).1 (hh ▸ hx)
      exact (List.mem_erase_of_ne hxa).mpr (hsub x (List.mem_cons_of_mem _ hx))
    exact Nat.add_le_add_left (ih (L.erase a) (List.nodup_cons.mp hnd).2 hS') (f a)

theorem sum_map_plus (f : NodeId → Nat) (S L : List NodeId) (m : NodeId)
    (hm : m ∈ L) (hS : S.Nodup) (hsub : ∀ x ∈ S, x ∈ L) (hnot : m ∉ S) :
    (S.map f).sum + f m ≤ (L.map f).sum := by
  have hperm : List.Perm L (m :: L.erase m) := List.perm_cons_erase hm
  have hsum : (L.map f).sum = f m + ((L.erase m).map f).sum := by
    rw [(hperm.map f).sum_eq]
    simp
  have hS' : ∀ x ∈ S, x ∈ L.erase m := by
    intro x hx
    have hxm : x ≠ m := fun hh => hnot (hh ▸ hx)
    exact (List.mem_erase_of_ne hxm).mpr (hsub x hx)
  have := sum_map_le f S (L.erase m) hS hS'
  omega

theorem sum_map_outside (f : NodeId → Nat) :
    ∀ (L S : List NodeId), L.Nodup → S.Nodup → (∀ x ∈ S, x ∈ L) →
      (∀ m ∈ L, m ∉ S → f m = 0) → (L.map f).sum ≤ (S.map f).sum := by
  intro L
  induction L with
  | nil => intro S _ _ _ _; simp
  | cons a L' ih =>
    intro S hLnd hSnd hsub hzero
    have haL' : a ∉ L' := (List.nodup_cons.mp hLnd).1
    by_cases haS : a ∈ S
    · have hperm : List.Perm S (a :: S.erase a) := List.perm_cons_erase haS
      have hsum : (S.map f).sum = f a + ((S.erase a).map f).sum := by
        rw [(hperm.map f).sum_eq]
        simp
      have hsub' : ∀ x ∈ S.erase a, x ∈ L' := by
        intro x hx
        have hxS : x ∈ S := List.mem_of_mem_erase hx
        have hxa : x ≠ a := by
          intro hh
          subst hh
          exact (List.Nodup.not_mem_erase hSnd) hx
        rcases List.mem_cons.mp (hsub x hxS) with rfl | hxx
        · exact absurd rfl hxa
        · exact hxx
      have hzero' : ∀ m ∈ L', m ∉ S.erase a → f m = 0 := by
        intro m hm hnot
        have hma : m ≠ a := fun hh => haL' (hh ▸ hm)
        apply hzero m (List.mem_cons_of_mem _ hm)
        intro hmS
        exact hnot ((List.mem_erase_of_ne hma).mpr hmS)
      have := ih (S.erase a) (List.nodup_cons.mp hLnd).2 (hSnd.erase a) hsub' hzero'
      simp only [List.map_cons, List.sum_cons]
      omega
    · have hfa : f a = 0 := hzero a (List.mem_cons_self _ _) haS
      have hsub' : ∀ x ∈ S, x ∈ L' := by
        intro x hx
        rcases List.mem_cons.mp (hsub x hx) with rfl | hxx
        · exact absurd hx haS
        · exact hxx
      have hzero' : ∀ m ∈ L', m ∉ S → f m = 0 := fun m hm =>
        hzero m (List.mem_cons_of_mem _ hm)
      have := ih S (List.nodup_cons.mp hLnd).2 hSnd hsub' hzero'
      simp only [List.map_cons, List.sum_cons, hfa]
      omega

/-- If a node has received fewer scheduled-producer uses than its total
in-degree, some producer of one of its edges is still unscheduled. -/
theorem missing_producer (g : KGraph) (hwf : KWf g) (S : List NodeId) (n : NodeId)
    (hS : S.Nodup) (hsub : ∀ x ∈ S, x ∈ g.seq)
    (hlt : usesFrom g S n < usesFrom g g.seq n) :
    ∃ m ∈ g.seq, m ∉ S ∧ 0 < ec g m n := by
  by_contra hcon
  push_neg at hcon
  have hzero : ∀ m ∈ g.seq, m ∉ S → ec g m n = 0 := by
    intro m hm hnot
    have := hcon m hm hnot
    omega
  have := sum_map_outside (fun m => ec g m n) g.seq S hwf.seqNodup hS hsub hzero
  unfold usesFrom at hlt
  omega

/-- If a node has received all its uses from `S`, every producer of an
edge into it lies in `S`. -/
theorem full_sources (g : KGraph) (hwf : KWf g) (S : List NodeId) (n m : NodeId)
    (hS : S.Nodup) (hsub : ∀ x ∈ S, x ∈ g.seq)
    (hfull : usesFrom g S n = usesFrom g g.seq n)
    (hm : m ∈ g.seq) (hnot : m ∉ S) : ec g m n = 0 := by
  have hle := sum_map_plus (fun x => ec g x n) S g.seq m hm hS hsub hnot
  simp only at hle
  unfold usesFrom at hfull
  omega

theorem count_append_one (pre : List NodeId) (u n : NodeId) :
    (pre ++ [u]).count n = pre.count n + (if u = n then 1 else 0) := by
  simp [List.count_append, List.count_singleton']

theorem nodup_append_singleton {X : List NodeId} {u : NodeId} :
    (X ++ [u]).Nodup ↔ X.Nodup ∧ u ∉ X := by
  constructor
  · intro h
    refine ⟨h.of_append_left, fun hu => ?_⟩
    exact (List.disjoint_of_nodup_append h) hu (List.mem_singleton_self u)
  · intro ⟨h1, h2⟩
    exact h1.append (List.nodup_singleton u)
      (fun a ha hb => h2 ((List.mem_singleton.mp hb) ▸ ha))

/-- The invariant of the extraction loop, at the top of each iteration:
`acc` is the output so far, `q` the queue contents.  Queue entries carry
the node's original index; each remaining in-degree equals the node's
slot count minus the uses already delivered by scheduled producers; queue
members are exactly ready; nodes neither emitted nor queued still miss a
producer; and emitted nodes follow all their producers. -/
structure LoopInv (g : KGraph) (d : DegMap) (q : PQ) (acc : List NodeId) : Prop where
  accSub : ∀ n ∈ acc, n ∈ g.seq
  qSub : ∀ p ∈ q, p.2 ∈ g.seq ∧ p.1 = g.seq.indexOf p.2
  nd : (acc ++ q.map Prod.snd).Nodup
  degs : ∀ n ∈ g.seq, degGet d n
    = (getNumOfInputs g n : Int) - (usesFrom g acc n : Int)
  ready : ∀ p ∈ q, usesFrom g acc p.2 = getNumOfInputs g p.2
  done : ∀ n ∈ acc, usesFrom g acc n = getNumOfInputs g n
  pending : ∀ n ∈ g.seq, n ∉ acc → n ∉ q.map Prod.snd →
    usesFrom g acc n < getNumOfInputs g n
  accOrd : ∀ u v, Edge g u v → v ∈ acc → u ∈ acc ∧ acc.indexOf u < acc.indexOf v

/-- The invariant while the decrement loop of one popped node `m0` runs:
`pre` is the multiset of users already decremented during this iteration. -/
structure MidInv (g : KGraph) (m0 : NodeId) (acc : List NodeId) (pre : List NodeId)
    (d : DegMap) (q : PQ) : Prop where
  degs : ∀ n ∈ g.seq, degGet d n
    = (getNumOfInputs g n : Int) - (usesFrom g acc n : Int) - (pre.count n : Int)
  qSub : ∀ p ∈ q, p.2 ∈ g.seq ∧ p.1 = g.seq.indexOf p.2
  nd : (acc ++ [m0] ++ q.map Prod.snd).Nodup
  ready : ∀ p ∈ q, usesFrom g acc p.2 + pre.count p.2 = getNumOfInputs g p.2
  pending : ∀ n ∈ g.seq, n ∉ acc → n ≠ m0 → n ∉ q.map Prod.snd →
    usesFrom g acc n + pre.count n < getNumOfInputs g n

theorem ite_self_one (u : NodeId) : (if u = u then 1 else 0) = 1 := if_pos rfl

theorem foldStep_inv (g : KGraph) (hwf : KWf g) (m0 : NodeId) (acc : List NodeId)
    (hm0 : m0 ∈ g.seq) (haccSub : ∀ n ∈ acc, n ∈ g.seq)
    (hdone : ∀ n ∈ acc, usesFrom g acc n = getNumOfInputs g n)
    (hm0done : usesFrom g acc m0 = getNumOfInputs g m0) :
    ∀ (us pre : List NodeId) (d : DegMap) (q : PQ),
      (∀ x ∈ us, x ∈ g.seq) →
      (∀ n, pre.count n + us.count n ≤ ec g m0 n) →
      MidInv g m0 acc pre d q →
      MidInv g m0 acc (pre ++ us) (us.foldl (stepUse (idxInit g.seq 0)) (d, q)).1
        (us.foldl (stepUse (idxInit g.seq 0)) (d, q)).2 := by
  intro us
  induction us with
  | nil =>
    intro pre d q _ _ hmid
    simpa using hmid
  | cons u us' ih =>
    intro pre d q hseq hcnt hmid
    have hu : u ∈ g.seq := hseq u (List.mem_cons_self _ _)
    -- the accumulated output extended by m0 is a duplicate-free subset of seq
    have hnd2 : (acc ++ [m0]).Nodup := hmid.nd.of_append_left
    have hm0acc : m0 ∉ acc := by
      intro hc
      have := (nodup_append_singleton.mp hnd2).2
      exact this hc
    have hsub2 : ∀ x ∈ acc ++ [m0], x ∈ g.seq := by
      intro x hx
      rcases List.mem_append.mp hx with hx | hx
      · exact haccSub x hx
      · exact (List.mem_singleton.mp hx) ▸ hm0
    -- global bound: uses from acc plus all of m0's arcs stay within the in-degree
    have hbound : ∀ n ∈ g.seq, usesFrom g acc n + ec g m0 n ≤ getNumOfInputs g n := by
      intro n hn
      have h1 : usesFrom g (acc ++ [m0]) n ≤ usesFrom g g.seq n :=
        sum_map_le (fun m => ec g m n) (acc ++ [m0]) g.seq hnd2 hsub2
      rw [usesFrom_append] at h1
      have h2 := usesFrom_seq_eq g hwf n hn
      unfold usesFrom at h1 h2 ⊢
      simp only [List.map_cons, List.map_nil, List.sum_cons, List.sum_nil] at h1
      unfold getNumOfInputs
      omega
    have hcu : pre.count u + 1 ≤ ec g m0 u := by
      have := hcnt u
      have hcc : (u :: us').count u = us'.count u + 1 := by
        simp [List.count_cons]
      omega
    have hbound1 : usesFrom g acc u + pre.count u + 1 ≤ getNumOfInputs g u := by
      have := hbound u hu
      omega
    have huacc : u ∉ acc := by
      intro hc
      have := hdone u hc
      omega
    have hum0 : u ≠ m0 := by
      intro hc
      subst hc
      omega
    have hdget : degGet (degDec d u) u
        = (getNumOfInputs g u : Int) - (usesFrom g acc u : Int) - (pre.count u : Int) - 1 := by
      rw [degGet_degDec_self, hmid.degs u hu]
    rw [List.foldl_cons]
    by_cases hpush : degGet (degDec d u) u = 0
    · -- the user reached in-degree zero and is pushed
      have hEq : usesFrom g acc u + pre.count u + 1 = getNumOfInputs g u := by
        rw [hdget] at hpush
        omega
      have huq : u ∉ q.map Prod.snd := by
        intro hc
        obtain ⟨p, hp, hp2⟩ := List.mem_map.mp hc
        have := hmid.ready p hp
        rw [hp2] at this
        omega
      have hstep : stepUse (idxInit g.seq 0) (d, q) u
          = (degDec d u, q ++ [(idxGet (idxInit g.seq 0) u, u)]) := by
        simp [stepUse, hpush]
      rw [hstep]
      have hidx : idxGet (idxInit g.seq 0) u = g.seq.indexOf u := by
        rw [idxGet_idxInit g.seq 0 u hu]
        omega
      have hmid' : MidInv g m0 acc (pre ++ [u]) (degDec d u)
          (q ++ [(idxGet (idxInit g.seq 0) u, u)]) := by
        refine ⟨?_, ?_, ?_, ?_, ?_⟩
        · intro n hn
          rw [count_append_one]
          by_cases hnu : n = u
          · subst hnu
            rw [hdget, ite_self_one]
            push_cast
            ring
          · rw [degGet_degDec_ne d u n hnu, hmid.degs n hn,
              if_neg (fun hh => hnu hh.symm)]
            push_cast
            ring
        · intro p hp
          rcases List.mem_append.mp hp with hp | hp
          · exact hmid.qSub p hp
          · rcases List.mem_singleton.mp hp with rfl
            exact ⟨hu, hidx⟩
        · rw [List.map_append]
          have : acc ++ [m0] ++ (q.map Prod.snd ++ [(idxGet (idxInit g.seq 0) u, u)].map Prod.snd)
              = (acc ++ [m0] ++ q.map Prod.snd) ++ [u] := by
            simp
          rw [this, nodup_append_singleton]
          refine ⟨hmid.nd, ?_⟩
          intro hc
          rcases List.mem_append.mp hc with hc | hc
          · rcases List.mem_append.mp hc with hc | hc
            · exact huacc hc
            · exact hum0 (List.mem_singleton.mp hc)
          · exact huq hc
        · intro p hp
          rcases List.mem_append.mp hp with hp | hp
          · have hne : u ≠ p.2 := by
              intro hc
              exact huq (hc ▸ List.mem_map_of_mem Prod.snd hp)
            rw [count_append_one, if_neg hne]
            have := hmid.ready p hp
            omega
          · rcases List.mem_singleton.mp hp with rfl
            simp only
            rw [count_append_one, ite_self_one]
            omega
        · intro n hn hn1 hn2 hn3
          have hn3' : n ∉ q.map Prod.snd := by
            intro hc
            apply hn3
            rw [List.map_append]
            exact List.mem_append_left _ hc
          have hnu : u ≠ n := by
            intro hc
            subst hc
            apply hn3
            rw [List.map_append]
            refine List.mem_append_right _ ?_
            simp
          rw [count_append_one, if_neg hnu]
          have := hmid.pending n hn hn1 hn2 hn3'
          omega
      have hcnt' : ∀ n, (pre ++ [u]).count n + us'.count n ≤ ec g m0 n := by
        intro n
        have := hcnt n
        rw [count_append_one]
        by_cases hnu : u = n
        · subst hnu
          have hcc : (u :: us').count u = us'.count u + 1 := by
            simp [List.count_cons]
          rw [ite_self_one]
          omega
        · have hnu' : ¬ n = u := fun hh => hnu hh.symm
          have hcc : (u :: us').count n = us'.count n := by
            simp [List.count_cons, hnu, hnu']
          rw [if_neg hnu]
          omega
      have hres := ih (pre ++ [u]) (degDec d u) (q ++ [(idxGet (idxInit g.seq 0) u, u)])
        (fun x hx => hseq x (List.mem_cons_of_mem _ hx)) hcnt' hmid'
      have hl : pre ++ [u] ++ us' = pre ++ u :: us' := by
        simp
      rw [hl] at hres
      exact hres
    · -- the user keeps a positive in-degree; queue unchanged
      have hne2 : usesFrom g acc u + pre.count u + 1 ≠ getNumOfInputs g u := by
        intro hc
        apply hpush
        rw [hdget]
        omega
      have huq : u ∉ q.map Prod.snd := by
        intro hc
        obtain ⟨p, hp, hp2⟩ := List.mem_map.mp hc
        have := hmid.ready p hp
        rw [hp2] at this
        omega
      have hstep : stepUse (idxInit g.seq 0) (d, q) u = (degDec d u, q) := by
        simp [stepUse, hpush]
      rw [hstep]
      have hmid' : MidInv g m0 acc (pre ++ [u]) (degDec d u) q := by
        refine ⟨?_, hmid.qSub, hmid.nd, ?_, ?_⟩
        · intro n hn
          rw [count_append_one]
          by_cases hnu : n = u
          · subst hnu
            rw [hdget, ite_self_one]
            push_cast
            ring
          · rw [degGet_degDec_ne d u n hnu, hmid.degs n hn,
              if_neg (fun hh => hnu hh.symm)]
            push_cast
            ring
        · intro p hp
          have hne : u ≠ p.2 := by
            intro hc
            exact huq (hc ▸ List.mem_map_of_mem Prod.snd hp)
          rw [count_append_one, if_neg hne]
          have := hmid.ready p hp
          omega
        · intro n hn hn1 hn2 hn3
          rw [count_append_one]
          by_cases hnu : u = n
          · subst hnu
            rw [ite_self_one]
            omega
          · rw [if_neg hnu]
            have := hmid.pending n hn hn1 hn2 hn3
            omega
      have hcnt' : ∀ n, (pre ++ [u]).count n + us'.count n ≤ ec g m0 n := by
        intro n
        have := hcnt n
        rw [count_append_one]
        by_cases hnu : u = n
        · subst hnu
          have hcc : (u :: us').count u = us'.count u + 1 := by
            simp [List.count_cons]
          rw [ite_self_one]
          omega
        · have hnu' : ¬ n = u := fun hh => hnu hh.symm
          have hcc : (u :: us').count n = us'.count n := by
            simp [List.count_cons, hnu, hnu']
          rw [if_neg hnu]
          omega
      have hres := ih (pre ++ [u]) (degDec d u) q
        (fun x hx => hseq x (List.mem_cons_of_mem _ hx)) hcnt' hmid'
      have hl : pre ++ [u] ++ us' = pre ++ u :: us' := by
        simp
      rw [hl] at hres
      exact hres

theorem usesFrom_single (g : KGraph) (m n : NodeId) : usesFrom g [m] n = ec g m n := by
  unfold usesFrom
  simp

theorem sum_pos_exists {α : Type} (l : List α) (f : α → Nat) (h : 0 < (l.map f).sum) :
    ∃ x ∈ l, 0 < f x := by
  induction l with
  | nil => simp at h
  | cons a t ih =>
    simp only [List.map_cons, List.sum_cons] at h
    by_cases ha : 0 < f a
    · exact ⟨a, List.mem_cons_self _ _, ha⟩
    · have : 0 < (t.map f).sum := by omega
      obtain ⟨x, hx, hfx⟩ := ih this
      exact ⟨x, List.mem_cons_of_mem _ hx, hfx⟩

theorem edge_target_seq (g : KGraph) (hwf : KWf g) {u v : NodeId} (h : Edge g u v) :
    v ∈ g.seq := by
  obtain ⟨hu, hec⟩ := h
  unfold ec at hec
  obtain ⟨w, hw, hcw⟩ := sum_pos_exists _ _ hec
  have hv : v ∈ g.users w := List.count_pos_iff_mem.mp hcw
  exact hwf.usersSeq w (mem_allOut g hu hw) v hv

theorem outUses_subset_seq (g : KGraph) (hwf : KWf g) {m : NodeId} (hm : m ∈ g.seq) :
    ∀ x ∈ outUses g m, x ∈ g.seq := by
  intro x hx
  unfold outUses at hx
  rw [List.mem_flatten] at hx
  obtain ⟨l, hl, hxl⟩ := hx
  rw [List.mem_map] at hl
  obtain ⟨w, hw, rfl⟩ := hl
  exact hwf.usersSeq w (mem_allOut g hm hw) x hxl

/-- One iteration of the extraction loop preserves the loop invariant. -/
theorem step_inv (g : KGraph) (hwf : KWf g) (d : DegMap) (q : PQ) (acc : List NodeId)
    (m : Nat × NodeId) (hq : pqMin q = some m) (hinv : LoopInv g d q acc) :
    LoopInv g (processNode g (idxInit g.seq 0) m.2 (d, pqRemove q m)).1
      (processNode g (idxInit g.seq 0) m.2 (d, pqRemove q m)).2 (acc ++ [m.2]) := by
  have hmemq := pqMin_mem hq
  obtain ⟨hm2seq, hm2idx⟩ := hinv.qSub m hmemq
  have hqperm : List.Perm (q.map Prod.snd) (m.2 :: (pqRemove q m).map Prod.snd) := by
    have h1 : List.Perm q (m :: pqRemove q m) := perm_pqRemove hmemq
    simpa using h1.map Prod.snd
  have hnd3 : (acc ++ [m.2] ++ (pqRemove q m).map Prod.snd).Nodup := by
    have h1 : List.Perm (acc ++ q.map Prod.snd)
        (acc ++ (m.2 :: (pqRemove q m).map Prod.snd)) := List.Perm.append_left acc hqperm
    have h2 := h1.nodup hinv.nd
    have h3 : acc ++ (m.2 :: (pqRemove q m).map Prod.snd)
        = acc ++ [m.2] ++ (pqRemove q m).map Prod.snd := by
      simp
    rw [h3] at h2
    exact h2
  have hm2acc : m.2 ∉ acc := by
    intro hc
    have h1 := hnd3.of_append_left
    exact (nodup_append_singleton.mp h1).2 hc
  have hready_m : usesFrom g acc m.2 = getNumOfInputs g m.2 := hinv.ready m hmemq
  have hmid0 : MidInv g m.2 acc [] d (pqRemove q m) := by
    refine ⟨?_, ?_, hnd3, ?_, ?_⟩
    · intro n hn
      rw [hinv.degs n hn]
      simp
    · exact fun p hp => hinv.qSub p (pqRemove_subset hp)
    · intro p hp
      have := hinv.ready p (pqRemove_subset hp)
      simpa using this
    · intro n hn hn1 hn2 hn3
      have hn4 : n ∉ q.map Prod.snd := by
        intro hc
        rcases List.mem_cons.mp (hqperm.mem_iff.mp hc) with rfl | hc'
        · exact hn2 rfl
        · exact hn3 hc'
      have := hinv.pending n hn hn1 hn4
      simpa using this
  have hcnt0 : ∀ n, (([] : List NodeId)).count n + (outUses g m.2).count n ≤ ec g m.2 n := by
    intro n
    rw [count_outUses]
    simp
  have hfold := foldStep_inv g hwf m.2 acc hm2seq hinv.accSub hinv.done hready_m
    (outUses g m.2) [] d (pqRemove q m) (outUses_subset_seq g hwf hm2seq) hcnt0 hmid0
  simp only [List.nil_append] at hfold
  have hproc : processNode g (idxInit g.seq 0) m.2 (d, pqRemove q m)
      = (outUses g m.2).foldl (stepUse (idxInit g.seq 0)) (d, pqRemove q m) := rfl
  rw [hproc]
  -- shorthand for the post-fold state
  set st := (outUses g m.2).foldl (stepUse (idxInit g.seq 0)) (d, pqRemove q m) with hst
  have hsub' : ∀ n ∈ acc ++ [m.2], n ∈ g.seq := by
    intro n hn
    rcases List.mem_append.mp hn with hn | hn
    · exact hinv.accSub n hn
    · exact (List.mem_singleton.mp hn) ▸ hm2seq
  have haccnd : acc.Nodup := hinv.nd.of_append_left
  have husesapp : ∀ n, usesFrom g (acc ++ [m.2]) n = usesFrom g acc n + ec g m.2 n := by
    intro n
    rw [usesFrom_append, usesFrom_single]
  have hseqtot : ∀ n ∈ g.seq, usesFrom g g.seq n = getNumOfInputs g n := by
    intro n hn
    rw [usesFrom_seq_eq g hwf n hn]
    rfl
  have hdone' : ∀ n ∈ acc ++ [m.2], usesFrom g (acc ++ [m.2]) n = getNumOfInputs g n := by
    intro n hn
    rcases List.mem_append.mp hn with hn | hn
    · have h1 := hinv.done n hn
      have hzero : ec g m.2 n = 0 := by
        apply full_sources g hwf acc n m.2 haccnd hinv.accSub
        · rw [h1, hseqtot n (hinv.accSub n hn)]
        · exact hm2seq
        · exact hm2acc
      rw [husesapp, hzero, h1]
      omega
    · rcases List.mem_singleton.mp hn with rfl
      have hzero : ec g m.2 m.2 = 0 := by
        apply full_sources g hwf acc m.2 m.2 haccnd hinv.accSub
        · rw [hready_m, hseqtot m.2 hm2seq]
        · exact hm2seq
        · exact hm2acc
      rw [husesapp, hzero, hready_m]
      omega
  refine ⟨hsub', hfold.qSub, ?_, ?_, ?_, hdone', ?_, ?_⟩
  · exact hfold.nd
  · intro n hn
    rw [hfold.degs n hn, count_outUses, husesapp]
    push_cast
    ring
  · intro p hp
    have := hfold.ready p hp
    rw [count_outUses, ← husesapp] at this
    exact this
  · intro n hn hn1 hn2
    have hn1a : n ∉ acc := fun hc => hn1 (List.mem_append_left _ hc)
    have hn1m : n ≠ m.2 := by
      intro hc
      apply hn1
      refine List.mem_append_right _ ?_
      simp [hc]
    have := hfold.pending n hn hn1a hn1m hn2
    rw [count_outUses, ← husesapp] at this
    exact this
  · intro u v hedge hv
    rcases List.mem_append.mp hv with hv | hv
    · obtain ⟨hu, hidx⟩ := hinv.accOrd u v hedge hv
      refine ⟨List.mem_append_left _ hu, ?_⟩
      rw [List.indexOf_append_of_mem hu, List.indexOf_append_of_mem hv]
      exact hidx
    · rcases List.mem_singleton.mp hv with rfl
      have hu : u ∈ acc := by
        by_contra hnot
        have hzero : ec g u m.2 = 0 := by
          apply full_sources g hwf acc m.2 u haccnd hinv.accSub
          · rw [hready_m, hseqtot m.2 hm2seq]
          · exact hedge.1
          · exact hnot
        have := hedge.2
        omega
      refine ⟨List.mem_append_left _ hu, ?_⟩
      rw [List.indexOf_append_of_mem hu, List.indexOf_append_of_not_mem hm2acc]
      have h1 : List.indexOf u acc < acc.length := List.indexOf_lt_length.mpr hu
      have h2 : List.indexOf m.2 [m.2] = 0 := List.indexOf_cons_self m.2 []
      omega

/-- Running the extraction loop from an invariant state ends in an
invariant state with an empty queue. -/
theorem kahnLoop_inv_final (g : KGraph) (hwf : KWf g) :
    ∀ (N : Nat) (d : DegMap) (q : PQ) (acc : List NodeId),
      q.length + posCount d ≤ N → LoopInv g d q acc →
      ∃ d', LoopInv g d' [] (kahnLoop g (idxInit g.seq 0) d q acc) := by
  intro N
  induction N with
  | zero =>
    intro d q acc hb hinv
    have hq : q = [] := by
      cases q with
      | nil => rfl
      | cons a b => simp at hb
    subst hq
    rw [kahnLoop_eq_nil g _ d [] acc rfl]
    exact ⟨d, hinv⟩
  | succ N ih =>
    intro d q acc hb hinv
    cases hq : pqMin q with
    | none =>
      have hq0 := pqMin_eq_none hq
      subst hq0
      rw [kahnLoop_eq_nil g _ d [] acc rfl]
      exact ⟨d, hinv⟩
    | some m =>
      have hmem := pqMin_mem hq
      have hlen : (pqRemove q m).length = q.length - 1 := pqRemove_length hmem
      have hpos : 1 ≤ q.length := List.length_pos.mpr (List.ne_nil_of_mem hmem)
      have hms := processNode_measure g (idxInit g.seq 0) m.2 (d, pqRemove q m)
      have hb' : (processNode g (idxInit g.seq 0) m.2 (d, pqRemove q m)).2.length
          + posCount (processNode g (idxInit g.seq 0) m.2 (d, pqRemove q m)).1 ≤ N := by
        simp only at hms
        omega
      rw [kahnLoop_eq_step g _ d q acc m hq]
      exact ih _ _ _ hb' (step_inv g hwf d q acc m hq hinv)

/-- The state after the initialization loop, for a duplicate-free sequence. -/
theorem kahnInit_eq (g : KGraph) (hnd : g.seq.Nodup) :
    kahnInitGo g g.seq 0 ([], [], [])
      = (degInit g g.seq, idxInit g.seq 0, seedQ g g.seq 0) := by
  rw [kahnInitGo_spec g g.seq hnd 0 [] [] [] (by simp) (by simp)]
  simp

theorem topoOrder_eq (g : KGraph) (hnd : g.seq.Nodup) :
    topoOrder g = kahnLoop g (idxInit g.seq 0) (degInit g g.seq) (seedQ g g.seq 0) [] := by
  unfold topoOrder
  rw [kahnInit_eq g hnd]

/-- The loop invariant holds at loop entry. -/
theorem init_inv (g : KGraph) (hwf : KWf g) :
    LoopInv g (degInit g g.seq) (seedQ g g.seq 0) [] := by
  refine ⟨?_, ?_, ?_, ?_, ?_, ?_, ?_, ?_⟩
  · intro n hn
    exact absurd hn (List.not_mem_nil n)
  · intro p hp
    obtain ⟨h1, h2, _⟩ := seedQ_mem g g.seq hwf.seqNodup 0 p hp
    exact ⟨h1, by omega⟩
  · rw [List.nil_append, seedQ_map_snd]
    exact hwf.seqNodup.filter _
  · intro n hn
    rw [degGet_degInit, if_pos hn]
    simp [usesFrom_nil]
  · intro p hp
    obtain ⟨_, _, h3⟩ := seedQ_mem g g.seq hwf.seqNodup 0 p hp
    rw [usesFrom_nil, h3]
  · intro n hn
    exact absurd hn (List.not_mem_nil n)
  · intro n hn _ hn2
    rw [seedQ_map_snd] at hn2
    have : ¬ (getNumOfInputs g n = 0) := by
      intro hz
      apply hn2
      rw [List.mem_filter]
      exact ⟨hn, by simp [hz]⟩
    rw [usesFrom_nil]
    omega
  · intro u v _ hv
    exact absurd hv (List.not_mem_nil v)

/-- C1: on a well-formed acyclic graph (acyclicity witnessed by a rank
function that increases along every edge), the output vector `nodes` of
`ComputeGraph::topologicalSort` is a permutation of the node sequence, and
for every edge `(u → v)` the node `u` precedes `v` in the output. -/
theorem scheduler_correct (g : KGraph) (hwf : KWf g) (rank : NodeId → Nat)
    (hrank : ∀ u ∈ g.seq, ∀ v ∈ g.seq, Edge g u v → rank u < rank v) :
    (topoOrder g).Perm g.seq ∧
      ∀ u v, Edge g u v → (topoOrder g).indexOf u < (topoOrder g).indexOf v := by
  obtain ⟨d', hfin⟩ := kahnLoop_inv_final g hwf
    ((seedQ g g.seq 0).length + posCount (degInit g g.seq))
    (degInit g g.seq) (seedQ g g.seq 0) [] (le_refl _) (init_inv g hwf)
  rw [← topoOrder_eq g hwf.seqNodup] at hfin
  have houtnd : (topoOrder g).Nodup := by
    have := hfin.nd
    simpa using this
  have hsub : ∀ n ∈ topoOrder g, n ∈ g.seq := hfin.accSub
  have hcomp : ∀ r, ∀ n ∈ g.seq, rank n < r → n ∈ topoOrder g := by
    intro r
    induction r with
    | zero => intro n _ hr; omega
    | succ r ih =>
      intro n hn hr
      by_contra hnot
      have hpend := hfin.pending n hn hnot (by simp)
      have hlt : usesFrom g (topoOrder g) n < usesFrom g g.seq n := by
        rw [usesFrom_seq_eq g hwf n hn]
        exact hpend
      obtain ⟨p, hpseq, hpnot, hpec⟩ :=
        missing_producer g hwf (topoOrder g) n houtnd hsub hlt
      have hedge : Edge g p n := ⟨hpseq, hpec⟩
      have hpr : rank p < rank n := hrank p hpseq n hn hedge
      exact hpnot (ih p hpseq (by omega))
  have hcomp' : ∀ n ∈ g.seq, n ∈ topoOrder g := fun n hn =>
    hcomp (rank n + 1) n hn (by omega)
  constructor
  · exact (List.perm_ext_iff_of_nodup houtnd hwf.seqNodup).mpr
      (fun a => ⟨fun h => hsub a h, fun h => hcomp' a h⟩)
  · intro u v hedge
    have hv : v ∈ topoOrder g := hcomp' v (edge_target_seq g hwf hedge)
    exact (hfin.accOrd u v hedge hv).2

/-- C4: on a well-formed graph, the in-degree `topologicalSort` records in
step 1 for a node equals the number of distinct incoming edges of that
node. -/
theorem indeg_records_incoming (g : KGraph) (hwf : KWf g) (n : NodeId) (hn : n ∈ g.seq) :
    degGet (kahnInitGo g g.seq 0 ([], [], [])).1 n = (usesFrom g g.seq n : Int) := by
  rw [kahnInit_eq g hwf.seqNodup]
  simp only
  rw [degGet_degInit, if_pos hn, usesFrom_seq_eq g hwf n hn]
  rfl

/-- A directed cycle among the sequence nodes: a nonempty node list where
each entry has an edge to its cyclic successor. -/
def IsCycle (g : KGraph) (c : List NodeId) : Prop :=
  c ≠ [] ∧ (∀ n ∈ c, n ∈ g.seq) ∧
    ∀ i : Fin c.length,
      Edge g (c.get i)
        (c.get ⟨(i.val + 1) % c.length,
          Nat.mod_lt _ (Nat.lt_of_le_of_lt (Nat.zero_le _) i.isLt)⟩)

instance (g : KGraph) (c : List NodeId) : Decidable (IsCycle g c) := by
  unfold IsCycle; infer_instance

theorem cycle_pred (g : KGraph) (c : List NodeId) (hc : IsCycle g c) :
    ∀ n ∈ c, ∃ p ∈ c, Edge g p n := by
  intro n hn
  obtain ⟨j, hj⟩ := List.mem_iff_get.mp hn
  obtain ⟨hne, hsub, hedges⟩ := hc
  have hlen : 0 < c.length := List.length_pos.mpr hne
  have hgeq : ∀ (a b : Fin c.length), a.val = b.val → c.get a = c.get b :=
    fun a b h => congrArg c.get (Fin.ext h)
  have hjl : j.val < c.length := j.isLt
  have hivlt : (j.val + c.length - 1) % c.length < c.length := Nat.mod_lt _ hlen
  have hedge := hedges ⟨(j.val + c.length - 1) % c.length, hivlt⟩
  have hnext : ((j.val + c.length - 1) % c.length + 1) % c.length = j.val := by
    rcases Nat.eq_zero_or_pos j.val with h0 | hpos
    · rw [h0]
      have h1 : (0 + c.length - 1) % c.length = c.length - 1 := by
        rw [Nat.zero_add]
        exact Nat.mod_eq_of_lt (by omega)
      rw [h1]
      have h2 : c.length - 1 + 1 = c.length := by omega
      rw [h2, Nat.mod_self]
    · have h1 : (j.val + c.length - 1) % c.length = j.val - 1 := by
        have he : j.val + c.length - 1 = (j.val - 1) + c.length := by omega
        rw [he, Nat.add_mod_right]
        exact Nat.mod_eq_of_lt (by omega)
      rw [h1]
      have h2 : j.val - 1 + 1 = j.val := by omega
      rw [h2]
      exact Nat.mod_eq_of_lt hjl
  have hval : c.get ⟨((j.val + c.length - 1) % c.length + 1) % c.length,
      Nat.mod_lt _ (Nat.lt_of_le_of_lt (Nat.zero_le _) hivlt)⟩ = n := by
    rw [← hj]
    exact hgeq _ j hnext
  rw [hval] at hedge
  exact ⟨c.get ⟨(j.val + c.length - 1) % c.length, hivlt⟩, List.get_mem c _ hivlt, hedge⟩

/-- C5: when the edge set contains a cycle, the extraction loop stops
before consuming the whole node set: every node on the cycle is silently
dropped from the output vector (no error path exists; the function is
total), and the output is strictly shorter than the node sequence. -/
theorem scheduler_cycle_drops (g : KGraph) (hwf : KWf g) (c : List NodeId)
    (hc : IsCycle g c) :
    (∀ n ∈ c, n ∉ topoOrder g) ∧ (topoOrder g).length < g.seq.length := by
  obtain ⟨d', hfin⟩ := kahnLoop_inv_final g hwf
    ((seedQ g g.seq 0).length + posCount (degInit g g.seq))
    (degInit g g.seq) (seedQ g g.seq 0) [] (le_refl _) (init_inv g hwf)
  rw [← topoOrder_eq g hwf.seqNodup] at hfin
  have houtnd : (topoOrder g).Nodup := by
    have := hfin.nd
    simpa using this
  have hnone : ∀ k, ∀ n ∈ c, n ∈ topoOrder g → (topoOrder g).indexOf n < k → False := by
    intro k
    induction k with
    | zero => intro n _ _ h; omega
    | succ k ih =>
      intro n hnc hnout hidx
      obtain ⟨p, hpc, hpedge⟩ := cycle_pred g c hc n hnc
      obtain ⟨hpout, hplt⟩ := hfin.accOrd p n hpedge hnout
      exact ih p hpc hpout (by omega)
  have hdrop : ∀ n ∈ c, n ∉ topoOrder g := fun n hn hmem =>
    hnone ((topoOrder g).indexOf n + 1) n hn hmem (by omega)
  refine ⟨hdrop, ?_⟩
  obtain ⟨hne, hsubc, _⟩ := hc
  obtain ⟨n0, hn0⟩ : ∃ n0, n0 ∈ c := ⟨c.head hne, List.head_mem hne⟩
  have hn0seq : n0 ∈ g.seq := hsubc n0 hn0
  have hn0out : n0 ∉ topoOrder g := hdrop n0 hn0
  have hsub2 : ∀ x ∈ topoOrder g, x ∈ g.seq.erase n0 := by
    intro x hx
    have hxs : x ∈ g.seq := hfin.accSub x hx
    have hxn : x ≠ n0 := fun hh => hn0out (hh ▸ hx)
    exact (List.mem_erase_of_ne hxn).mpr hxs
  have hsum1 : ∀ (l : List NodeId), (l.map (fun _ => 1)).sum = l.length := by
    intro l
    induction l with
    | nil => rfl
    | cons a t ih =>
      simp only [List.map_cons, List.sum_cons, List.length_cons, ih]
      omega
  have hle : (topoOrder g).length ≤ (g.seq.erase n0).length := by
    have h1 := sum_map_le (fun _ => 1) (topoOrder g) (g.seq.erase n0) houtnd hsub2
    rw [hsum1, hsum1] at h1
    exact h1
  have hlen := List.length_erase_of_mem hn0seq
  have hpos : 1 ≤ g.seq.length := List.length_pos.mpr (List.ne_nil_of_mem hn0seq)
  omega

theorem nodup_map_eq {l : List (Nat × NodeId)} (h : (l.map Prod.snd).Nodup) :
    ∀ p ∈ l, ∀ r ∈ l, p.2 = r.2 → p = r := by
  induction l with
  | nil => intro p hp; simp at hp
  | cons x t ih =>
    intro p hp r hr heq
    rw [List.map_cons, List.nodup_cons] at h
    obtain ⟨hx, ht⟩ := h
    rcases List.mem_cons.mp hp with rfl | hp' <;> rcases List.mem_cons.mp hr with rfl | hr'
    · rfl
    · refine absurd ?_ hx
      rw [heq]
      exact List.mem_map_of_mem Prod.snd hr'
    · refine absurd ?_ hx
      rw [← heq]
      exact List.mem_map_of_mem Prod.snd hp'
    · exact ih ht p hp' r hr' heq

/-- The loop states (degree map, queue, output vector) at the top of each
iteration of the extraction loop, in order. -/
def kahnTrace (g : KGraph) (o : IdxMap) (d : DegMap) (q : PQ) (acc : List NodeId) :
    List (DegMap × PQ × List NodeId) :=
  (d, q, acc) ::
    (match h : pqMin q with
     | none => []
     | some m =>
       kahnTrace g o (processNode g o m.2 (d, pqRemove q m)).1
         (processNode g o m.2 (d, pqRemove q m)).2 (acc ++ [m.2]))
termination_by q.length + posCount d
decreasing_by
  have hmem := pqMin_mem h
  have hlen : (pqRemove q m).length = q.length - 1 := pqRemove_length hmem
  have hms := processNode_measure g o m.2 (d, pqRemove q m)
  have hq : 1 ≤ q.length := List.length_pos.mpr (List.ne_nil_of_mem hmem)
  simp only at hms
  omega

theorem kahnTrace_eq_nil (g : KGraph) (o : IdxMap) (d : DegMap) (q : PQ)
    (acc : List NodeId) (hq : pqMin q = none) :
    kahnTrace g o d q acc = [(d, q, acc)] := by
  rw [kahnTrace, hq]

theorem kahnTrace_eq_step (g : KGraph) (o : IdxMap) (d : DegMap) (q : PQ)
    (acc : List NodeId) (m : Nat × NodeId) (hq : pqMin q = some m) :
    kahnTrace g o d q acc
      = (d, q, acc) :: kahnTrace g o (processNode g o m.2 (d, pqRemove q m)).1
          (processNode g o m.2 (d, pqRemove q m)).2 (acc ++ [m.2]) := by
  rw [kahnTrace, hq]

theorem kahnTrace_head (g : KGraph) (o : IdxMap) (d : DegMap) (q : PQ)
    (acc : List NodeId) : (d, q, acc) ∈ kahnTrace g o d q acc := by
  rw [kahnTrace]
  exact List.mem_cons_self _ _

/-- Every state on the trace satisfies the loop invariant and continues to
the same final output. -/
theorem trace_run (g : KGraph) (hwf : KWf g) :
    ∀ (N : Nat) (d : DegMap) (q : PQ) (acc : List NodeId),
      q.length + posCount d ≤ N → LoopInv g d q acc →
      ∀ st ∈ kahnTrace g (idxInit g.seq 0) d q acc,
        LoopInv g st.1 st.2.1 st.2.2 ∧
          kahnLoop g (idxInit g.seq 0) st.1 st.2.1 st.2.2
            = kahnLoop g (idxInit g.seq 0) d q acc := by
  intro N
  induction N with
  | zero =>
    intro d q acc hb hinv st hst
    have hq : q = [] := by
      cases q with
      | nil => rfl
      | cons a b => simp at hb
    subst hq
    rw [kahnTrace_eq_nil g _ d [] acc rfl] at hst
    rcases List.mem_singleton.mp hst with rfl
    exact ⟨hinv, rfl⟩
  | succ N ih =>
    intro d q acc hb hinv st hst
    cases hq : pqMin q with
    | none =>
      rw [kahnTrace_eq_nil g _ d q acc hq] at hst
      rcases List.mem_singleton.mp hst with rfl
      exact ⟨hinv, rfl⟩
    | some m =>
      rw [kahnTrace_eq_step g _ d q acc m hq] at hst
      rcases List.mem_cons.mp hst with rfl | hst'
      · exact ⟨hinv, rfl⟩
      · have hmem := pqMin_mem hq
        have hlen : (pqRemove q m).length = q.length - 1 := pqRemove_length hmem
        have hpos : 1 ≤ q.length := List.length_pos.mpr (List.ne_nil_of_mem hmem)
        have hms := processNode_measure g (idxInit g.seq 0) m.2 (d, pqRemove q m)
        have hb' : (processNode g (idxInit g.seq 0) m.2 (d, pqRemove q m)).2.length
            + posCount (processNode g (idxInit g.seq 0) m.2 (d, pqRemove q m)).1 ≤ N := by
          simp only at hms
          omega
        obtain ⟨h1, h2⟩ := ih _ _ _ hb' (step_inv g hwf d q acc m hq hinv) st hst'
        refine ⟨h1, ?_⟩
        rw [h2, kahnLoop_eq_step g _ d q acc m hq]

/-- From any invariant state, if `a` and `b` are simultaneously in the
queue and `a` carries the smaller original index, then `a` is emitted
before `b`. -/
theorem kahnLoop_order (g : KGraph) (hwf : KWf g) :
    ∀ (N : Nat) (d : DegMap) (q : PQ) (acc : List NodeId),
      q.length + posCount d ≤ N → LoopInv g d q acc →
      ∀ (ia ib : Nat) (a b : NodeId), (ia, a) ∈ q → (ib, b) ∈ q → ia < ib →
      (kahnLoop g (idxInit g.seq 0) d q acc).indexOf a
        < (kahnLoop g (idxInit g.seq 0) d q acc).indexOf b := by
  intro N
  induction N with
  | zero =>
    intro d q acc hb hinv ia ib a b ha hb' hlt
    exfalso
    have := List.length_pos.mpr (List.ne_nil_of_mem ha)
    omega
  | succ N ih =>
    intro d q acc hb hinv ia ib a b ha hb' hlt
    cases hq : pqMin q with
    | none => exact absurd (pqMin_eq_none hq ▸ ha) (List.not_mem_nil _)
    | some m =>
      have hmem := pqMin_mem hq
      have hqnd : (q.map Prod.snd).Nodup := hinv.nd.of_append_right
      have hdisj := List.disjoint_of_nodup_append hinv.nd
      have hlen : (pqRemove q m).length = q.length - 1 := pqRemove_length hmem
      have hpos : 1 ≤ q.length := List.length_pos.mpr (List.ne_nil_of_mem hmem)
      have hms := processNode_measure g (idxInit g.seq 0) m.2 (d, pqRemove q m)
      have hb2 : (processNode g (idxInit g.seq 0) m.2 (d, pqRemove q m)).2.length
          + posCount (processNode g (idxInit g.seq 0) m.2 (d, pqRemove q m)).1 ≤ N := by
        simp only at hms
        omega
      have hinv' := step_inv g hwf d q acc m hq hinv
      have hab : a ≠ b := by
        intro hh
        subst hh
        have := nodup_map_eq hqnd (ia, a) ha (ib, a) hb' rfl
        injection this with h1 _
        omega
      rw [kahnLoop_eq_step g _ d q acc m hq]
      by_cases hma : m = (ia, a)
      · have hm2a : m.2 = a := by rw [hma]
        rw [kahnLoop_acc g _ N _ _ _ hb2]
        have hanacc : a ∉ acc := by
          intro hc
          rw [← hm2a] at hc
          exact hdisj hc (List.mem_map_of_mem Prod.snd hmem)
        have hbnacc : b ∉ acc := by
          intro hc
          exact hdisj hc (List.mem_map_of_mem Prod.snd hb')
        rw [hm2a]
        have hre : acc ++ [a]
            ++ kahnLoop g (idxInit g.seq 0)
              (processNode g (idxInit g.seq 0) a (d, pqRemove q m)).1
              (processNode g (idxInit g.seq 0) a (d, pqRemove q m)).2 []
            = acc ++ (a :: kahnLoop g (idxInit g.seq 0)
              (processNode g (idxInit g.seq 0) a (d, pqRemove q m)).1
              (processNode g (idxInit g.seq 0) a (d, pqRemove q m)).2 []) := by
          simp
        rw [hre, List.indexOf_append_of_not_mem hanacc,
          List.indexOf_append_of_not_mem hbnacc, List.indexOf_cons_self,
          List.indexOf_cons_ne _ hab]
        omega
      · by_cases hmb : m = (ib, b)
        · exfalso
          have hle := pqMin_le hq (ia, a) ha
          rw [hmb] at hle
          rcases hle with hle | ⟨hle, _⟩ <;> omega
        · have haq' : (ia, a) ∈ pqRemove q m := mem_pqRemove (fun hh => hma hh.symm) ha
          have hbq' : (ib, b) ∈ pqRemove q m := mem_pqRemove (fun hh => hmb hh.symm) hb'
          obtain ⟨t, ht⟩ :=
            processNode_queue_extends g (idxInit g.seq 0) m.2 (d, pqRemove q m)
          have haq'' : (ia, a) ∈ (processNode g (idxInit g.seq 0) m.2 (d, pqRemove q m)).2 := by
            rw [ht]
            exact List.mem_append_left t haq'
          have hbq'' : (ib, b) ∈ (processNode g (idxInit g.seq 0) m.2 (d, pqRemove q m)).2 := by
            rw [ht]
            exact List.mem_append_left t hbq'
          exact ih _ _ _ hb2 hinv' ia ib a b haq'' hbq'' hlt

/-- The loop-state trace of `topologicalSort` on a graph, from the state
the initialization loop builds. -/
def topoTrace (g : KGraph) : List (DegMap × PQ × List NodeId) :=
  let st := kahnInitGo g g.seq 0 ([], [], [])
  kahnTrace g st.2.1 st.1 st.2.2 []

/-- C3: stability of the scheduler.  Whenever two nodes `a` and `b` are
ready simultaneously (both sit in the priority queue at the top of some
iteration) and `a` carries the smaller original-position index, `a` is
scheduled before `b` in the output vector. -/
theorem scheduler_stability (g : KGraph) (hwf : KWf g) (d : DegMap) (q : PQ)
    (acc : List NodeId) (hst : (d, q, acc) ∈ topoTrace g) (ia ib : Nat) (a b : NodeId)
    (ha : (ia, a) ∈ q) (hb : (ib, b) ∈ q) (hlt : ia < ib) :
    (topoOrder g).indexOf a < (topoOrder g).indexOf b := by
  have htr : topoTrace g
      = kahnTrace g (idxInit g.seq 0) (degInit g g.seq) (seedQ g g.seq 0) [] := by
    unfold topoTrace
    rw [kahnInit_eq g hwf.seqNodup]
  rw [htr] at hst
  obtain ⟨hinv, hrun⟩ := trace_run g hwf
    ((seedQ g g.seq 0).length + posCount (degInit g g.seq))
    (degInit g g.seq) (seedQ g g.seq 0) [] (le_refl _) (init_inv g hwf)
    (d, q, acc) hst
  have hout : kahnLoop g (idxInit g.seq 0) d q acc = topoOrder g := by
    rw [hrun, ← topoOrder_eq g hwf.seqNodup]
  rw [← hout]
  exact kahnLoop_order g hwf (q.length + posCount d) d q acc (le_refl _)
    hinv ia ib a b ha hb hlt

/-- Pointwise update of a map, modelling a store through a pointer. -/
def upd {α : Type} (f : Nat → α) (k : Nat) (v : α) : Nat → α :=
  fun x => if x = k then v else f x

theorem upd_self {α : Type} (f : Nat → α) (k : Nat) (v : α) : upd f k v k = v := by
  simp [upd]

theorem upd_ne {α : Type} (f : Nat → α) (k : Nat) (v : α) (x : Nat) (h : x ≠ k) :
    upd f k v x = f x := by
  simp [upd, h]

/-- The pointer-level state of a `ComputeGraph` together with the node and
arc stores it reaches: `head`/`rear` are `m_pNodeHead`/`m_pNodeRear`;
`prevN`/`nextN` are the nodes' `prev`/`next` fields; `firstIn`/`firstOut`
the heads of each node's fan-in/fan-out chains; the `arc*` maps are the
`ComputeOperand` fields (`source`, `target`, and the four chain links);
`nodeList` is `m_NodeList`, `arcList` is `m_ArcList`; `liveArcs` records
which arc objects have not been `delete`d; `inputs`/`outputs`/`users` are
the value slots and use lists read by `topologicalSort`. -/
structure CG where
  head : Option Nat
  rear : Option Nat
  prevN : Nat → Option Nat
  nextN : Nat → Option Nat
  firstIn : Nat → Option Nat
  firstOut : Nat → Option Nat
  arcSrc : Nat → Nat
  arcTgt : Nat → Nat
  arcPrevIn : Nat → Option Nat
  arcNextIn : Nat → Option Nat
  arcPrevOut : Nat → Option Nat
  arcNextOut : Nat → Option Nat
  nodeList : List Nat
  arcList : List Nat
  liveArcs : List Nat
  inputs : Nat → List Nat
  outputs : Nat → List Nat
  users : Nat → List Nat

/-- `ComputeGraph::erase(ComputeOperand&)`, lines 81-117: unlink the arc
from its source's fan-out chain, then from its target's fan-in chain; then
search `m_ArcList` and, only when found, erase the entry and release the
arc's storage. -/
def arcOutUnlink (g : CG) (a : Nat) : CG :=
  let g1 :=
    match g.arcPrevOut a with
    | some p => { g with arcNextOut := upd g.arcNextOut p (g.arcNextOut a) }
    | none => { g with firstOut := upd g.firstOut (g.arcSrc a) (g.arcNextOut a) }
  match g1.arcNextOut a with
  | some nx => { g1 with arcPrevOut := upd g1.arcPrevOut nx (g1.arcPrevOut a) }
  | none => g1

def arcInUnlink (g : CG) (a : Nat) : CG :=
  let g3 :=
    match g.arcPrevIn a with
    | some p => { g with arcNextIn := upd g.arcNextIn p (g.arcNextIn a) }
    | none => { g with firstIn := upd g.firstIn (g.arcTgt a) (g.arcNextIn a) }
  match g3.arcNextIn a with
  | some nx => { g3 with arcPrevIn := upd g3.arcPrevIn nx (g3.arcPrevIn a) }
  | none => g3

def eraseArcG (g : CG) (a : Nat) : CG :=
  let g4 := arcInUnlink (arcOutUnlink g a) a
  if a ∈ g4.arcList then
    { g4 with arcList := g4.arcList.erase a, liveArcs := g4.liveArcs.erase a }
  else
    g4

/-- The fan-in removal loop (lines 59-64): follow the chain, capturing each
arc's `next_in` before erasing it.  The fuel argument bounds the walk; on
well-formed states the chain is shorter than the arc list, so the fuel
never runs out. -/
def eraseFanIn (g : CG) : Option Nat → Nat → CG
  | none, _ => g
  | some _, 0 => g
  | some a, fuel + 1 => eraseFanIn (eraseArcG g a) (g.arcNextIn a) fuel

/-- The fan-out removal loop (lines 67-72). -/
def eraseFanOut (g : CG) : Option Nat → Nat → CG
  | none, _ => g
  | some _, 0 => g
  | some a, fuel + 1 => eraseFanOut (eraseArcG g a) (g.arcNextOut a) fuel

/-- Step 1 of `ComputeGraph::erase(ComputeOperator&)`, lines 44-56: splice
the node out of the doubly-linked sequence, fixing `m_pNodeHead` and
`m_pNodeRear` when the node is the head or the rear. -/
def spliceNodeG (g : CG) (n : Nat) : CG :=
  let gA :=
    match g.nextN n with
    | some m => { g with prevN := upd g.prevN m (g.prevN n) }
    | none => { g with rear := g.prevN n }
  match gA.prevN n with
  | some p => { gA with nextN := upd gA.nextN p (gA.nextN n) }
  | none => { gA with head := gA.nextN n }

/-- `ComputeGraph::erase(ComputeOperator&)`, lines 41-79: splice the node
out of the doubly-linked sequence (fixing `m_pNodeHead`/`m_pNodeRear` when
the node is the head or the rear), erase every fan-in then every fan-out
arc, and remove the node from `m_NodeList`. -/
def eraseNodeG (g : CG) (n : Nat) : CG :=
  -- 1. connect previous node and next node (lines 44-56)
  let gB := spliceNodeG g n
  -- 2. remove all fan-in arcs (lines 59-64)
  let gC := eraseFanIn gB (gB.firstIn n) gB.arcList.length
  -- 3. remove all fan-out arcs (lines 67-72)
  let gD := eraseFanOut gC (gC.firstOut n) gC.arcList.length
  -- 4./5. remove the node from the node list and release it (lines 75-78)
  { gD with nodeList := gD.nodeList.erase n }

/-- Modelled from the spec: node insertion (`ComputeGraph::addOperator`) is
not under `src/`; per §4.1 it "appends a freshly constructed, unattached
node to the sequence tail", so the new node gets empty chains, its `prev`
set to the old rear, and the old rear (or the head pointer, when the
sequence was empty) is pointed at it. -/
def insertNodeG (g : CG) (n : Nat) : CG :=
  let g1 := { g with prevN := upd g.prevN n g.rear, nextN := upd g.nextN n none,
                     firstIn := upd g.firstIn n none, firstOut := upd g.firstOut n none }
  let g2 :=
    match g.rear with
    | some r => { g1 with nextN := upd g1.nextN r (some n) }
    | none => { g1 with head := some n }
  { g2 with rear := some n, nodeList := g2.nodeList ++ [n] }

/-- A pointer walk: follow `nxt` from `start`, up to `fuel` steps. -/
def walkNext (nxt : Nat → Option Nat) : Option Nat → Nat → List Nat
  | none, _ => []
  | some _, 0 => []
  | some x, fuel + 1 => x :: walkNext nxt (nxt x) fuel

/-- Sequential traversal from `begin()` (`m_pNodeHead`) to `end()`. -/
def walkFwd (g : CG) : List Nat :=
  walkNext g.nextN g.head g.nodeList.length

/-- The reverse walk from `m_pNodeRear` following `prev` links. -/
def walkBwd (g : CG) : List Nat :=
  walkNext g.prevN g.rear g.nodeList.length

/-- The fan-in chain of a node as the pointer walk from `getFirstInArc()`. -/
def chainIn (g : CG) (n : Nat) : List Nat :=
  walkNext g.arcNextIn (g.firstIn n) g.arcList.length

/-- The fan-out chain of a node as the pointer walk from `getFirstOutArc()`. -/
def chainOut (g : CG) (n : Nat) : List Nat :=
  walkNext g.arcNextOut (g.firstOut n) g.arcList.length

/-- The view of the pointer state that `topologicalSort` reads: the node
sequence from `begin()` and the value structure. -/
def kgraphOf (g : CG) : KGraph :=
  { seq := walkFwd g, inputs := g.inputs, outputs := g.outputs, users := g.users }

/-- One assignment pair of the write-back loop (lines 242-243):
`nodes[i]->prev = (i > 0) ? nodes[i-1] : nullptr;`
`nodes[i]->next = (i < nodes.size()-1) ? nodes[i+1] : nullptr;`. -/
def wbStep (ns : List Nat) (gc : CG) (i : Nat) : CG :=
  let nd := ns.getD i 0
  let pv := if 0 < i then some (ns.getD (i - 1) 0) else none
  let nx := if i < ns.length - 1 then some (ns.getD (i + 1) 0) else none
  let gp := { gc with prevN := upd gc.prevN nd pv }
  { gp with nextN := upd gp.nextN nd nx }

/-- The write-back loop of `topologicalSort` (lines 241-244). -/
def writeBack (g : CG) (ns : List Nat) : CG :=
  (List.range ns.length).foldl (wbStep ns) g

/-- `ComputeGraph::topologicalSort` on the pointer state: compute the
output vector and rewrite the `prev`/`next` links; `m_pNodeHead` and
`m_pNodeRear` are not touched. -/
def topoSortG (g : CG) : CG :=
  writeBack g (topoOrder (kgraphOf g))

/-- A freshly constructed graph: empty sequence, no arcs. -/
def emptyCG : CG :=
  { head := none, rear := none, prevN := fun _ => none, nextN := fun _ => none,
    firstIn := fun _ => none, firstOut := fun _ => none,
    arcSrc := fun _ => 0, arcTgt := fun _ => 0,
    arcPrevIn := fun _ => none, arcNextIn := fun _ => none,
    arcPrevOut := fun _ => none, arcNextOut := fun _ => none,
    nodeList := [], arcList := [], liveArcs := [],
    inputs := fun _ => [], outputs := fun _ => [], users := fun _ => [] }

/-- A structural edit on the node store: insert a fresh node or erase a
node. -/
inductive GOp where
  | add (n : Nat) : GOp
  | del (n : Nat) : GOp

def applyOp (g : CG) : GOp → CG
  | GOp.add n => insertNodeG g n
  | GOp.del n => eraseNodeG g n

def applyOps (g : CG) (ops : List GOp) : CG :=
  ops.foldl applyOp g

/-- Validity of an edit script against the current sequence contents:
inserted nodes are fresh (`new` never yields a live pointer) and erased
nodes are members. -/
def validOps : List Nat → List GOp → Bool
  | _, [] => true
  | l, GOp.add n :: rest => !(l.contains n) && validOps (l ++ [n]) rest
  | l, GOp.del n :: rest => l.contains n && validOps (l.erase n) rest

/-- A value as `ComputeGraph::erase(Value&)` reads it: its name, its
defining operator (`Value::getDefine`), and its use list
(`Value::getUses`); these accessors are not under `src/` and are modelled
from the spec's data model (§3). -/
structure MValue where
  vname : Nat
  define : Option Nat
  uses : List Nat

/-- `ComputeGraph::erase(Value&)`, lines 119-125.  The two `assert`
statements are modelled as an error result carrying the assertion text:
the function refuses (fails fast) instead of reaching the erase when the
value still has a definer or uses. -/
def eraseValueG (vl : List (Nat × MValue)) (v : MValue) : Except String (List (Nat × MValue)) :=
  if v.define ≠ none then Except.error "Define still exist."
  else if v.uses ≠ [] then Except.error "User list is not empty."
  else Except.ok (vl.filter (fun p => p.1 ≠ v.vname))

/-- A doubly-linked segment: the nodes of `l`, in order, are linked through
`nxt`/`prv`; the first points back to `pr`, consecutive nodes point at each
other, and the last points forward to `after`. -/
def Seg (nxt prv : Nat → Option Nat) : Option Nat → List Nat → Option Nat → Prop
  | _, [], _ => True
  | pr, x :: xs, after =>
      prv x = pr ∧
      nxt x = (match xs with | [] => after | y :: _ => some y) ∧
      Seg nxt prv (some x) xs after

/-- The last element of `l` as a pointer, with fallback `pr` when `l` is
empty. -/
def lastO (l : List Nat) (pr : Option Nat) : Option Nat :=
  match l.getLast? with
  | some p => some p
  | none => pr

theorem lastO_nil (pr : Option Nat) : lastO [] pr = pr := rfl

theorem lastO_cons (a : Nat) (l : List Nat) (pr : Option Nat) :
    lastO (a :: l) pr = lastO l (some a) := by
  cases l with
  | nil => rfl
  | cons b t =>
    unfold lastO
    rw [List.getLast?_cons_cons]
    cases h : (b :: t).getLast? with
    | none => simp at h
    | some q => rfl

theorem lastO_none (l : List Nat) : lastO l none = l.getLast? := by
  cases h : l.getLast? <;> simp [lastO, h]

theorem seg_ext (nxt prv nxt' prv' : Nat → Option Nat) :
    ∀ (l : List Nat) (pr after : Option Nat),
      Seg nxt prv pr l after →
      (∀ z ∈ l, nxt' z = nxt z ∧ prv' z = prv z) →
      Seg nxt' prv' pr l after := by
  intro l
  induction l with
  | nil => intro pr after _ _; trivial
  | cons x xs ih =>
    intro pr after hseg hag
    obtain ⟨h1, h2, h3⟩ := hseg
    obtain ⟨hx1, hx2⟩ := hag x (List.mem_cons_self _ _)
    refine ⟨by rw [hx2, h1], by rw [hx1, h2], ?_⟩
    exact ih (some x) after h3 (fun z hz => hag z (List.mem_cons_of_mem _ hz))

theorem seg_append (nxt prv : Nat → Option Nat) :
    ∀ (l1 : List Nat) (pr : Option Nat) (l2 : List Nat) (after : Option Nat),
      Seg nxt prv pr (l1 ++ l2) after ↔
        (Seg nxt prv pr l1 (match l2 with | [] => after | x :: _ => some x) ∧
         Seg nxt prv (lastO l1 pr) l2 after) := by
  intro l1
  induction l1 with
  | nil =>
    intro pr l2 after
    cases l2 <;> simp [Seg, lastO_nil]
  | cons a l1' ih =>
    intro pr l2 after
    simp only [List.cons_append, List.append_eq, Seg]
    rw [ih (some a) l2 after, lastO_cons]
    cases l1' with
    | nil =>
      cases l2 with
      | nil => simp [Seg, lastO_nil]; try tauto
      | cons c u => simp [Seg, lastO_nil]; try tauto
    | cons b t =>
      simp only [List.cons_append]
      tauto

theorem mem_of_getLast?_eq {l : List Nat} {p : Nat} (h : l.getLast? = some p) :
    p ∈ l := by
  obtain ⟨hne, hp⟩ := List.mem_getLast?_eq_getLast (Option.mem_def.mpr h)
  rw [hp]
  exact List.getLast_mem hne

theorem seg_retarget (nxt prv : Nat → Option Nat) :
    ∀ (l : List Nat) (pr : Option Nat) (p : Nat) (after after' : Option Nat),
      Seg nxt prv pr l after → l.getLast? = some p → l.Nodup →
      Seg (upd nxt p after') prv pr l after' := by
  intro l
  induction l with
  | nil => intro pr p after after' _ hl; simp at hl
  | cons x xs ih =>
    intro pr p after after' hseg hl hnd
    obtain ⟨h1, h2, h3⟩ := hseg
    cases xs with
    | nil =>
      have hp : x = p := by simpa using hl
      subst hp
      exact ⟨h1, upd_self _ _ _, trivial⟩
    | cons y t =>
      have hl' : (y :: t).getLast? = some p := by
        rw [← hl]
        simp [List.getLast?_cons_cons]
      have hpmem : p ∈ y :: t := by
        cases hgl : (y :: t).getLast? with
        | none => simp at hgl
        | some q =>
          rw [hgl] at hl'
          injection hl' with hq
          subst hq
          exact mem_of_getLast?_eq hgl
      have hxp : x ≠ p := by
        intro hh
        exact (List.nodup_cons.mp hnd).1 (hh ▸ hpmem)
      refine ⟨h1, ?_, ih (some x) p after after' h3 hl' (List.nodup_cons.mp hnd).2⟩
      rw [upd_ne _ _ _ _ hxp]
      exact h2

theorem seg_adj (nxt prv : Nat → Option Nat) :
    ∀ (l : List Nat) (pr after : Option Nat), Seg nxt prv pr l after →
      ∀ p ∈ l.zip l.tail, nxt p.1 = some p.2 ∧ prv p.2 = some p.1 := by
  intro l
  induction l with
  | nil => intro pr after _ p hp; simp at hp
  | cons x xs ih =>
    intro pr after hseg p hp
    obtain ⟨h1, h2, h3⟩ := hseg
    cases xs with
    | nil => simp at hp
    | cons y t =>
      simp only [List.tail_cons, List.zip_cons_cons] at hp
      rcases List.mem_cons.mp hp with rfl | hp'
      · exact ⟨h2, h3.1⟩
      · exact ih (some x) after h3 p hp'

theorem walk_of_seg (nxt prv : Nat → Option Nat) :
    ∀ (l : List Nat) (pr : Option Nat) (fuel : Nat),
      Seg nxt prv pr l none → l.length ≤ fuel →
      walkNext nxt l.head? fuel = l := by
  intro l
  induction l with
  | nil => intro pr fuel _ _; cases fuel <;> rfl
  | cons x xs ih =>
    intro pr fuel hseg hfuel
    obtain ⟨h1, h2, h3⟩ := hseg
    have hx : nxt x = xs.head? := by
      cases xs <;> simpa using h2
    cases fuel with
    | zero => simp at hfuel
    | succ f =>
      simp only [List.head?_cons, walkNext, hx]
      rw [ih (some x) f h3 (by simpa using hfuel)]

theorem walkb_of_seg (nxt prv : Nat → Option Nat) :
    ∀ (l : List Nat) (pr after : Option Nat) (fuel : Nat),
      Seg nxt prv pr l after → l.length ≤ fuel →
      walkNext prv (lastO l pr) fuel = l.reverse ++ walkNext prv pr (fuel - l.length) := by
  intro l
  induction l with
  | nil =>
    intro pr after fuel _ _
    simp [lastO_nil]
  | cons x xs ih =>
    intro pr after fuel hseg hfuel
    obtain ⟨h1, h2, h3⟩ := hseg
    rw [lastO_cons, ih (some x) after fuel h3 (by simp at hfuel; omega)]
    have hk : fuel - xs.length = (fuel - (x :: xs).length) + 1 := by
      simp at hfuel ⊢
      omega
    rw [hk]
    simp only [walkNext, h1]
    simp

/-- `eraseArcG` touches only the arc-chain fields and the arc bookkeeping:
the node sequence, the node list, the arc endpoints, and the value data are
untouched. -/
theorem arcOutUnlink_frame (g : CG) (a : Nat) :
    (arcOutUnlink g a).head = g.head ∧ (arcOutUnlink g a).rear = g.rear ∧
    (arcOutUnlink g a).prevN = g.prevN ∧ (arcOutUnlink g a).nextN = g.nextN ∧
    (arcOutUnlink g a).nodeList = g.nodeList ∧
    (arcOutUnlink g a).arcSrc = g.arcSrc ∧ (arcOutUnlink g a).arcTgt = g.arcTgt ∧
    (arcOutUnlink g a).inputs = g.inputs ∧ (arcOutUnlink g a).outputs = g.outputs ∧
    (arcOutUnlink g a).users = g.users ∧
    (arcOutUnlink g a).firstIn = g.firstIn ∧
    (arcOutUnlink g a).arcPrevIn = g.arcPrevIn ∧
    (arcOutUnlink g a).arcNextIn = g.arcNextIn ∧
    (arcOutUnlink g a).arcList = g.arcList ∧
    (arcOutUnlink g a).liveArcs = g.liveArcs := by
  unfold arcOutUnlink
  simp only []
  repeat' split
  all_goals exact ⟨rfl, rfl, rfl, rfl, rfl, rfl, rfl, rfl, rfl, rfl, rfl, rfl, rfl, rfl, rfl⟩

theorem arcInUnlink_frame (g : CG) (a : Nat) :
    (arcInUnlink g a).head = g.head ∧ (arcInUnlink g a).rear = g.rear ∧
    (arcInUnlink g a).prevN = g.prevN ∧ (arcInUnlink g a).nextN = g.nextN ∧
    (arcInUnlink g a).nodeList = g.nodeList ∧
    (arcInUnlink g a).arcSrc = g.arcSrc ∧ (arcInUnlink g a).arcTgt = g.arcTgt ∧
    (arcInUnlink g a).inputs = g.inputs ∧ (arcInUnlink g a).outputs = g.outputs ∧
    (arcInUnlink g a).users = g.users ∧
    (arcInUnlink g a).firstOut = g.firstOut ∧
    (arcInUnlink g a).arcPrevOut = g.arcPrevOut ∧
    (arcInUnlink g a).arcNextOut = g.arcNextOut ∧
    (arcInUnlink g a).arcList = g.arcList ∧
    (arcInUnlink g a).liveArcs = g.liveArcs := by
  unfold arcInUnlink
  simp only []
  repeat' split
  all_goals exact ⟨rfl, rfl, rfl, rfl, rfl, rfl, rfl, rfl, rfl, rfl, rfl, rfl, rfl, rfl, rfl⟩

theorem eraseArcG_listIf (g : CG) (a : Nat) :
    (a ∈ (arcInUnlink (arcOutUnlink g a) a).arcList →
      eraseArcG g a
        = { arcInUnlink (arcOutUnlink g a) a with
            arcList := (arcInUnlink (arcOutUnlink g a) a).arcList.erase a,
            liveArcs := (arcInUnlink (arcOutUnlink g a) a).liveArcs.erase a }) ∧
    (a ∉ (arcInUnlink (arcOutUnlink g a) a).arcList →
      eraseArcG g a = arcInUnlink (arcOutUnlink g a) a) := by
  unfold eraseArcG
  simp only []
  constructor
  · intro h
    rw [if_pos h]
  · intro h
    rw [if_neg h]

/-- `eraseArcG` touches only the arc-chain fields and the arc bookkeeping:
the node sequence, the node list, the arc endpoints, and the value data are
untouched. -/
theorem eraseArcG_frame (g : CG) (a : Nat) :
    (eraseArcG g a).head = g.head ∧ (eraseArcG g a).rear = g.rear ∧
    (eraseArcG g a).prevN = g.prevN ∧ (eraseArcG g a).nextN = g.nextN ∧
    (eraseArcG g a).nodeList = g.nodeList ∧
    (eraseArcG g a).arcSrc = g.arcSrc ∧ (eraseArcG g a).arcTgt = g.arcTgt ∧
    (eraseArcG g a).inputs = g.inputs ∧ (eraseArcG g a).outputs = g.outputs ∧
    (eraseArcG g a).users = g.users := by
  obtain ⟨o1, o2, o3, o4, o5, o6, o7, o8, o9, o10, _⟩ := arcOutUnlink_frame g a
  obtain ⟨i1, i2, i3, i4, i5, i6, i7, i8, i9, i10, _⟩ :=
    arcInUnlink_frame (arcOutUnlink g a) a
  have hsplit := eraseArcG_listIf g a
  by_cases hm : a ∈ (arcInUnlink (arcOutUnlink g a) a).arcList
  · rw [hsplit.1 hm]
    exact ⟨i1.trans o1, i2.trans o2, i3.trans o3, i4.trans o4, i5.trans o5,
      i6.trans o6, i7.trans o7, i8.trans o8, i9.trans o9, i10.trans o10⟩
  · rw [hsplit.2 hm]
    exact ⟨i1.trans o1, i2.trans o2, i3.trans o3, i4.trans o4, i5.trans o5,
      i6.trans o6, i7.trans o7, i8.trans o8, i9.trans o9, i10.trans o10⟩

theorem eraseFanIn_frame (g : CG) :
    ∀ (fuel : Nat) (cur : Option Nat),
    (eraseFanIn g cur fuel).head = g.head ∧ (eraseFanIn g cur fuel).rear = g.rear ∧
    (eraseFanIn g cur fuel).prevN = g.prevN ∧ (eraseFanIn g cur fuel).nextN = g.nextN ∧
    (eraseFanIn g cur fuel).nodeList = g.nodeList ∧
    (eraseFanIn g cur fuel).arcSrc = g.arcSrc ∧
    (eraseFanIn g cur fuel).arcTgt = g.arcTgt ∧
    (eraseFanIn g cur fuel).inputs = g.inputs ∧
    (eraseFanIn g cur fuel).outputs = g.outputs ∧
    (eraseFanIn g cur fuel).users = g.users := by
  intro fuel
  induction fuel generalizing g with
  | zero => intro cur; cases cur <;> exact ⟨rfl, rfl, rfl, rfl, rfl, rfl, rfl, rfl, rfl, rfl⟩
  | succ f ih =>
    intro cur
    cases cur with
    | none => exact ⟨rfl, rfl, rfl, rfl, rfl, rfl, rfl, rfl, rfl, rfl⟩
    | some a =>
      have h1 := eraseArcG_frame g a
      have h2 := ih (eraseArcG g a) (g.arcNextIn a)
      simp only [eraseFanIn]
      obtain ⟨a1, a2, a3, a4, a5, a6, a7, a8, a9, a10⟩ := h1
      obtain ⟨b1, b2, b3, b4, b5, b6, b7, b8, b9, b10⟩ := h2
      exact ⟨b1.trans a1, b2.trans a2, b3.trans a3, b4.trans a4, b5.trans a5,
        b6.trans a6, b7.trans a7, b8.trans a8, b9.trans a9, b10.trans a10⟩

theorem eraseFanOut_frame (g : CG) :
    ∀ (fuel : Nat) (cur : Option Nat),
    (eraseFanOut g cur fuel).head = g.head ∧ (eraseFanOut g cur fuel).rear = g.rear ∧
    (eraseFanOut g cur fuel).prevN = g.prevN ∧ (eraseFanOut g cur fuel).nextN = g.nextN ∧
    (eraseFanOut g cur fuel).nodeList = g.nodeList ∧
    (eraseFanOut g cur fuel).arcSrc = g.arcSrc ∧
    (eraseFanOut g cur fuel).arcTgt = g.arcTgt ∧
    (eraseFanOut g cur fuel).inputs = g.inputs ∧
    (eraseFanOut g cur fuel).outputs = g.outputs ∧
    (eraseFanOut g cur fuel).users = g.users := by
  intro fuel
  induction fuel generalizing g with
  | zero => intro cur; cases cur <;> exact ⟨rfl, rfl, rfl, rfl, rfl, rfl, rfl, rfl, rfl, rfl⟩
  | succ f ih =>
    intro cur
    cases cur with
    | none => exact ⟨rfl, rfl, rfl, rfl, rfl, rfl, rfl, rfl, rfl, rfl⟩
    | some a =>
      have h1 := eraseArcG_frame g a
      have h2 := ih (eraseArcG g a) (g.arcNextOut a)
      simp only [eraseFanOut]
      obtain ⟨a1, a2, a3, a4, a5, a6, a7, a8, a9, a10⟩ := h1
      obtain ⟨b1, b2, b3, b4, b5, b6, b7, b8, b9, b10⟩ := h2
      exact ⟨b1.trans a1, b2.trans a2, b3.trans a3, b4.trans a4, b5.trans a5,
        b6.trans a6, b7.trans a7, b8.trans a8, b9.trans a9, b10.trans a10⟩

/-- The node links after step 1 of `erase(ComputeOperator&)`. -/
def prvA (g : CG) (n : Nat) : Nat → Option Nat :=
  match g.nextN n with
  | some m => upd g.prevN m (g.prevN n)
  | none => g.prevN

/-- The sequence-related fields of the state after `erase(ComputeOperator&)`:
the arc-removal loops do not touch them, so they are determined by the
splice of step 1 and the node-list removal of step 4. -/
theorem eraseNodeG_fields (g : CG) (n : Nat) :
    (eraseNodeG g n).prevN = prvA g n ∧
    (eraseNodeG g n).nextN
      = (match prvA g n n with
         | some p => upd g.nextN p (g.nextN n)
         | none => g.nextN) ∧
    (eraseNodeG g n).head
      = (match prvA g n n with | some _ => g.head | none => g.nextN n) ∧
    (eraseNodeG g n).rear
      = (match g.nextN n with | some _ => g.rear | none => g.prevN n) ∧
    (eraseNodeG g n).nodeList = g.nodeList.erase n := by
  have harc : ∀ (gg : CG) (c1 : Option Nat) (f1 : Nat) (c2 : Option Nat) (f2 : Nat),
      (eraseFanOut (eraseFanIn gg c1 f1) c2 f2).head = gg.head ∧
      (eraseFanOut (eraseFanIn gg c1 f1) c2 f2).rear = gg.rear ∧
      (eraseFanOut (eraseFanIn gg c1 f1) c2 f2).prevN = gg.prevN ∧
      (eraseFanOut (eraseFanIn gg c1 f1) c2 f2).nextN = gg.nextN ∧
      (eraseFanOut (eraseFanIn gg c1 f1) c2 f2).nodeList = gg.nodeList := by
    intro gg c1 f1 c2 f2
    obtain ⟨a1, a2, a3, a4, a5, _⟩ := eraseFanIn_frame gg f1 c1
    obtain ⟨b1, b2, b3, b4, b5, _⟩ := eraseFanOut_frame (eraseFanIn gg c1 f1) f2 c2
    exact ⟨b1.trans a1, b2.trans a2, b3.trans a3, b4.trans a4, b5.trans a5⟩
  refine ⟨?_, ?_, ?_, ?_, ?_⟩
  · unfold eraseNodeG
    simp only []
    rw [(harc _ _ _ _ _).2.2.1]
    cases hA : g.nextN n <;>
      (simp only [spliceNodeG, prvA, hA]
       try rfl
       try (split <;> rfl))
  · unfold eraseNodeG
    simp only []
    rw [(harc _ _ _ _ _).2.2.2.1]
    cases hA : g.nextN n <;>
      (simp only [spliceNodeG, prvA, hA]
       try rfl
       try (split <;> rfl))
  · unfold eraseNodeG
    simp only []
    rw [(harc _ _ _ _ _).1]
    cases hA : g.nextN n <;>
      (simp only [spliceNodeG, prvA, hA]
       try rfl
       try (split <;> rfl))
  · unfold eraseNodeG
    simp only []
    rw [(harc _ _ _ _ _).2.1]
    cases hA : g.nextN n <;>
      (simp only [spliceNodeG, prvA, hA]
       try rfl
       try (split <;> rfl))
  · unfold eraseNodeG
    simp only []
    rw [(harc _ _ _ _ _).2.2.2.2]
    cases hA : g.nextN n <;>
      (simp only [spliceNodeG, prvA, hA]
       try rfl
       try (split <;> rfl))

/-- The global sequence invariant (spec §3, invariant 1): the doubly-linked
list encodes the duplicate-free node list `l`, with `m_pNodeHead` at its
head and `m_pNodeRear` at its last element. -/
structure SeqEnc (g : CG) (l : List Nat) : Prop where
  nd : l.Nodup
  hd : g.head = l.head?
  rr : g.rear = l.getLast?
  links : Seg g.nextN g.prevN none l none
  nodes : g.nodeList.Perm l

theorem getLast?_none_nil : ∀ {l : List Nat}, l.getLast? = none → l = [] := by
  intro l
  induction l with
  | nil => intro _; rfl
  | cons a t ih =>
    intro h
    cases t with
    | nil => simp at h
    | cons b t' =>
      rw [List.getLast?_cons_cons] at h
      exact absurd (ih h) (by simp)

theorem getLast?_append_cons :
    ∀ (X : List Nat) (b : Nat) (Y : List Nat),
      (X ++ b :: Y).getLast? = (b :: Y).getLast? := by
  intro X
  induction X with
  | nil => intro b Y; rfl
  | cons a X' ih =>
    intro b Y
    have hsh : (a :: X') ++ b :: Y = a :: (X' ++ b :: Y) := rfl
    rw [hsh]
    cases hX : X' ++ b :: Y with
    | nil => exact absurd hX (by simp)
    | cons c t =>
      rw [List.getLast?_cons_cons, ← hX, ih]

theorem head?_append_left (l1 l2 : List Nat) (h : l1 ≠ []) :
    (l1 ++ l2).head? = l1.head? := by
  cases l1 with
  | nil => exact absurd rfl h
  | cons a t => rfl

/-- Erasing a member node rewrites the sequence encoding to the list with
that node removed: the splice keeps the rest of the doubly-linked list
intact and fixes the head and rear anchors. -/
theorem seqEnc_eraseNode (g : CG) (l : List Nat) (n : Nat)
    (henc : SeqEnc g l) (hn : n ∈ l) :
    SeqEnc (eraseNodeG g n) (l.erase n) := by
  obtain ⟨l1, l2, rfl⟩ := List.append_of_mem hn
  obtain ⟨hfp, hfn, hfh, hfr, hfl⟩ := eraseNodeG_fields g n
  have hnd := henc.nd
  have hn1 : n ∉ l1 := fun hc =>
    (List.disjoint_of_nodup_append hnd) hc (List.mem_cons_self _ _)
  have hn2 : n ∉ l2 := (List.nodup_cons.mp hnd.of_append_right).1
  have herase : (l1 ++ n :: l2).erase n = l1 ++ l2 := by
    rw [List.erase_append_right _ hn1, List.erase_cons_head]
  rw [herase]
  obtain ⟨hseg1, hseg2⟩ :=
    (seg_append g.nextN g.prevN l1 none (n :: l2) none).mp henc.links
  obtain ⟨hprvn, hnxtn, hseg2'⟩ := hseg2
  have hl1nd : l1.Nodup := hnd.of_append_left
  have hl2nd : l2.Nodup := (List.nodup_cons.mp hnd.of_append_right).2
  have hdisj12 : ∀ x ∈ l1, x ∉ l2 := fun x hx hc =>
    (List.disjoint_of_nodup_append hnd) hx (List.mem_cons_of_mem _ hc)
  have hndnew : (l1 ++ l2).Nodup := by
    have hsl : List.Sublist (l1 ++ l2) (l1 ++ n :: l2) :=
      List.Sublist.append_left (List.sublist_cons_self n l2) l1
    exact hnd.sublist hsl
  have hnodes : (eraseNodeG g n).nodeList.Perm (l1 ++ l2) := by
    rw [hfl, ← herase]
    exact henc.nodes.erase n
  cases l2 with
  | nil =>
    -- n was the rear
    have hnxtn' : g.nextN n = none := hnxtn
    cases hll : l1.getLast? with
    | none =>
      have hl1e : l1 = [] := getLast?_none_nil hll
      subst hl1e
      have hpA : prvA g n n = none := by
        simp only [prvA, hnxtn']
        rw [hprvn, lastO_nil]
      refine ⟨hndnew, ?_, ?_, ?_, hnodes⟩
      · rw [hfh, hpA]
        simp [hnxtn']
      · rw [hfr, hnxtn']
        rw [hprvn, lastO_nil]
        rfl
      · trivial
    | some p =>
      have hlastO : lastO l1 none = some p := by simp [lastO, hll]
      have hpA : prvA g n n = some p := by
        simp only [prvA, hnxtn']
        rw [hprvn, hlastO]
      have hl1ne : l1 ≠ [] := by
        intro hc
        subst hc
        simp at hll
      refine ⟨hndnew, ?_, ?_, ?_, hnodes⟩
      · rw [hfh, hpA]
        rw [henc.hd, List.append_nil, head?_append_left l1 [n] hl1ne]
      · rw [hfr, hnxtn', hprvn, hlastO, List.append_nil, hll]
      · rw [List.append_nil]
        have hretarget := seg_retarget g.nextN g.prevN l1 none p (some n) none
          hseg1 hll hl1nd
        have hmaps : (eraseNodeG g n).nextN = upd g.nextN p none ∧
            (eraseNodeG g n).prevN = g.prevN := by
          constructor
          · rw [hfn, hpA, hnxtn']
          · rw [hfp]
            simp [prvA, hnxtn']
        rw [hmaps.1, hmaps.2]
        exact hretarget
  | cons y l2' =>
    have hnxtn' : g.nextN n = some y := hnxtn
    obtain ⟨hprvy, hnxty, hseg3⟩ := hseg2'
    have hyn : ¬ (n = y) := by
      intro hc
      exact hn2 (hc ▸ List.mem_cons_self y l2')
    have hyl2' : y ∉ l2' := (List.nodup_cons.mp hl2nd).1
    have hpAval : prvA g n = upd g.prevN y (g.prevN n) := by
      simp [prvA, hnxtn']
    have hpAn : prvA g n n = g.prevN n := by
      rw [hpAval, upd_ne _ _ _ _ hyn]
    cases hll : l1.getLast? with
    | none =>
      have hl1e : l1 = [] := getLast?_none_nil hll
      subst hl1e
      have hprvn' : g.prevN n = none := by rw [hprvn, lastO_nil]
      have hpA : prvA g n n = none := by rw [hpAn, hprvn']
      refine ⟨hndnew, ?_, ?_, ?_, hnodes⟩
      · rw [hfh, hpA, hnxtn']
        rfl
      · rw [hfr, hnxtn', henc.rr]
        simp [List.getLast?_cons_cons]
      · have hmaps : (eraseNodeG g n).nextN = g.nextN ∧
            (eraseNodeG g n).prevN = upd g.prevN y none := by
          constructor
          · rw [hfn, hpA]
          · rw [hfp, hpAval, hprvn']
        rw [hmaps.1, hmaps.2, List.nil_append]
        refine ⟨upd_self _ _ _, hnxty, ?_⟩
        refine seg_ext g.nextN g.prevN _ _ l2' (some y) none hseg3 ?_
        intro z hz
        exact ⟨rfl, upd_ne _ _ _ _ (fun hc => hyl2' (hc ▸ hz))⟩
    | some p =>
      have hlastO : lastO l1 none = some p := by simp [lastO, hll]
      have hprvn' : g.prevN n = some p := by rw [hprvn, hlastO]
      have hpA : prvA g n n = some p := by rw [hpAn, hprvn']
      have hl1ne : l1 ≠ [] := by
        intro hc
        subst hc
        simp at hll
      have hpmem : p ∈ l1 := mem_of_getLast?_eq hll
      have hpy : ¬ (y = p) := fun hc =>
        hdisj12 p hpmem (hc ▸ List.mem_cons_self y l2')
      have hpn : ¬ (p = n) := fun hc => hn1 (hc ▸ hpmem)
      have hmaps : (eraseNodeG g n).nextN = upd g.nextN p (some y) ∧
          (eraseNodeG g n).prevN = upd g.prevN y (some p) := by
        constructor
        · rw [hfn, hpA, hnxtn']
        · rw [hfp, hpAval, hprvn']
      refine ⟨hndnew, ?_, ?_, ?_, hnodes⟩
      · rw [hfh, hpA, henc.hd, head?_append_left l1 _ hl1ne,
          head?_append_left l1 _ hl1ne]
      · rw [hfr, hnxtn', henc.rr, getLast?_append_cons, getLast?_append_cons,
          List.getLast?_cons_cons]
      · rw [hmaps.1, hmaps.2]
        rw [seg_append]
        constructor
        · have hretarget := seg_retarget g.nextN g.prevN l1 none p (some n) (some y)
            hseg1 hll hl1nd
          refine seg_ext (upd g.nextN p (some y)) g.prevN _ _ l1 none (some y)
            hretarget ?_
          intro z hz
          refine ⟨rfl, upd_ne _ _ _ _ ?_⟩
          intro hc
          exact hdisj12 z hz (hc ▸ List.mem_cons_self y l2')
        · rw [hlastO]
          refine ⟨?_, ?_, ?_⟩
          · exact upd_self _ _ _
          · rw [upd_ne _ _ _ _ hpy]
            exact hnxty
          · refine seg_ext g.nextN g.prevN _ _ l2' (some y) none hseg3 ?_
            intro z hz
            constructor
            · refine upd_ne _ _ _ _ ?_
              intro hc
              exact hdisj12 p hpmem (hc ▸ List.mem_cons_of_mem y hz)
            · refine upd_ne _ _ _ _ ?_
              intro hc
              exact hyl2' (hc ▸ hz)

/-- Inserting a fresh node appends it to the sequence encoding. -/
theorem seqEnc_insert (g : CG) (l : List Nat) (n : Nat)
    (henc : SeqEnc g l) (hn : n ∉ l) :
    SeqEnc (insertNodeG g n) (l ++ [n]) := by
  have hndnew : (l ++ [n]).Nodup := nodup_append_singleton.mpr ⟨henc.nd, hn⟩
  have hnodes : (insertNodeG g n).nodeList.Perm (l ++ [n]) := by
    have hfl : (insertNodeG g n).nodeList = g.nodeList ++ [n] := by
      unfold insertNodeG
      cases g.rear <;> rfl
    rw [hfl]
    exact henc.nodes.append_right [n]
  cases hre : g.rear with
  | none =>
    have hle : l = [] := getLast?_none_nil (by rw [← henc.rr, hre])
    subst hle
    refine ⟨hndnew, ?_, ?_, ?_, hnodes⟩
    · unfold insertNodeG
      rw [hre]
      rfl
    · unfold insertNodeG
      rw [hre]
      rfl
    · have hmaps : (insertNodeG g n).prevN = upd g.prevN n g.rear ∧
          (insertNodeG g n).nextN = upd g.nextN n none := by
        unfold insertNodeG
        rw [hre]
        exact ⟨rfl, rfl⟩
      rw [List.nil_append, hmaps.1, hmaps.2]
      exact ⟨by rw [upd_self, hre], by rw [upd_self], trivial⟩
  | some r =>
    have hlast : l.getLast? = some r := by rw [← henc.rr, hre]
    have hrl : r ∈ l := mem_of_getLast?_eq hlast
    have hrn : ¬ (n = r) := fun hc => hn (by rw [hc]; exact hrl)
    have hlne : l ≠ [] := by
      intro hc
      subst hc
      simp at hlast
    have hmaps : (insertNodeG g n).prevN = upd g.prevN n g.rear ∧
        (insertNodeG g n).nextN = upd (upd g.nextN n none) r (some n) ∧
        (insertNodeG g n).head = g.head ∧
        (insertNodeG g n).rear = some n := by
      unfold insertNodeG
      rw [hre]
      exact ⟨rfl, rfl, rfl, rfl⟩
    refine ⟨hndnew, ?_, ?_, ?_, hnodes⟩
    · rw [hmaps.2.2.1, henc.hd, head?_append_left l [n] hlne]
    · rw [hmaps.2.2.2, getLast?_append_cons l n []]
      rfl
    · rw [hmaps.1, hmaps.2.1, seg_append]
      constructor
    -- the old list, retargeted at its last element to point at `n`
      · have hretarget := seg_retarget g.nextN g.prevN l none r none (some n)
          henc.links hlast henc.nd
        refine seg_ext (upd g.nextN r (some n)) g.prevN _ _ l none (some n)
          hretarget ?_
        intro z hz
        constructor
        · by_cases hzr : z = r
          · subst hzr
            rw [upd_self, upd_self]
          · rw [upd_ne _ _ _ _ hzr, upd_ne _ _ _ _ hzr,
              upd_ne _ _ _ _ (fun hc => hn (by rw [← hc]; exact hz))]
        · exact upd_ne _ _ _ _ (fun hc => hn (by rw [← hc]; exact hz))
      · rw [lastO_none, hlast]
        refine ⟨by rw [upd_self, hre], ?_, trivial⟩
        rw [upd_ne _ _ _ _ hrn, upd_self]

theorem seqEnc_walkFwd (g : CG) (l : List Nat) (henc : SeqEnc g l) :
    walkFwd g = l := by
  unfold walkFwd
  rw [henc.hd]
  exact walk_of_seg g.nextN g.prevN l none g.nodeList.length henc.links
    (le_of_eq henc.nodes.length_eq.symm)

theorem walkNext_none (nxt : Nat → Option Nat) (fuel : Nat) :
    walkNext nxt none fuel = [] := by
  cases fuel <;> rfl

theorem seqEnc_walkBwd (g : CG) (l : List Nat) (henc : SeqEnc g l) :
    walkBwd g = l.reverse := by
  unfold walkBwd
  rw [henc.rr, ← lastO_none]
  rw [walkb_of_seg g.nextN g.prevN l none none g.nodeList.length henc.links
    (le_of_eq henc.nodes.length_eq.symm)]
  rw [walkNext_none]
  simp

theorem seg_last_nxt (nxt prv : Nat → Option Nat) :
    ∀ (l : List Nat) (pr : Option Nat), Seg nxt prv pr l none →
      ∀ x, l.getLast? = some x → nxt x = none := by
  intro l
  induction l with
  | nil => intro pr _ x hx; simp at hx
  | cons a t ih =>
    intro pr hseg x hx
    obtain ⟨h1, h2, h3⟩ := hseg
    cases t with
    | nil =>
      have hax : x = a := by simpa using hx.symm
      subst hax
      exact h2
    | cons b t' =>
      rw [List.getLast?_cons_cons] at hx
      exact ih (some a) h3 x hx

/-- Every valid edit script preserves the sequence encoding. -/
theorem seqInv_applyOps :
    ∀ (ops : List GOp) (g : CG) (l : List Nat), SeqEnc g l → validOps l ops = true →
      ∃ l', SeqEnc (applyOps g ops) l' := by
  intro ops
  induction ops with
  | nil => exact fun g l henc _ => ⟨l, henc⟩
  | cons op rest ih =>
    intro g l henc hv
    cases op with
    | add n =>
      rw [validOps, Bool.and_eq_true] at hv
      have hn : n ∉ l := by
        intro hc
        have h1 := hv.1
        have hcont : l.contains n = true :=
          List.contains_iff_exists_mem_beq.mpr ⟨n, hc, by simp⟩
        rw [hcont] at h1
        simp at h1
      exact ih (insertNodeG g n) (l ++ [n]) (seqEnc_insert g l n henc hn) hv.2
    | del n =>
      rw [validOps, Bool.and_eq_true] at hv
      have hn : n ∈ l := by
        obtain ⟨m, hm, hbeq⟩ := List.contains_iff_exists_mem_beq.mp hv.1
        have hnm : n = m := by simpa using hbeq
        rw [hnm]
        exact hm
      exact ih (eraseNodeG g n) (l.erase n) (seqEnc_eraseNode g l n henc hn) hv.2

/-- C7: after any valid sequence of node insertions and erasures starting
from the empty graph, the global sequence is a simple doubly-linked list:
the head has no `prev` and the rear no `next`, consecutive nodes point at
each other in both directions, and the forward walk from the head and the
backward walk from the rear visit the same duplicate-free node list in
opposite orders. -/
theorem sequence_wellformed (ops : List GOp) (hv : validOps [] ops = true) :
    ∃ l : List Nat, l.Nodup ∧
      walkFwd (applyOps emptyCG ops) = l ∧
      walkBwd (applyOps emptyCG ops) = l.reverse ∧
      (applyOps emptyCG ops).head = l.head? ∧
      (applyOps emptyCG ops).rear = l.getLast? ∧
      (∀ x, (applyOps emptyCG ops).head = some x →
        (applyOps emptyCG ops).prevN x = none) ∧
      (∀ x, (applyOps emptyCG ops).rear = some x →
        (applyOps emptyCG ops).nextN x = none) ∧
      (∀ p ∈ l.zip l.tail, (applyOps emptyCG ops).nextN p.1 = some p.2 ∧
        (applyOps emptyCG ops).prevN p.2 = some p.1) := by
  have hempty : SeqEnc emptyCG [] := ⟨List.nodup_nil, rfl, rfl, trivial, List.Perm.refl []⟩
  obtain ⟨l, henc⟩ := seqInv_applyOps ops emptyCG [] hempty hv
  refine ⟨l, henc.nd, seqEnc_walkFwd _ _ henc, seqEnc_walkBwd _ _ henc,
    henc.hd, henc.rr, ?_, ?_, seg_adj _ _ l none none henc.links⟩
  · intro x hx
    rw [henc.hd] at hx
    cases l with
    | nil => simp at hx
    | cons a t =>
      have hxa : x = a := by simpa using hx.symm
      subst hxa
      exact henc.links.1
  · intro x hx
    rw [henc.rr] at hx
    exact seg_last_nxt _ _ l none henc.links x hx

/-- Every field of the pointer state except the nodes' `prev`/`next`
links. -/
def frameView (g : CG) :=
  (g.head, g.rear, g.firstIn, g.firstOut, g.arcSrc, g.arcTgt,
   g.arcPrevIn, g.arcNextIn, g.arcPrevOut, g.arcNextOut,
   g.nodeList, g.arcList, g.liveArcs, g.inputs, g.outputs, g.users)

theorem wbStep_frame (ns : List Nat) (gc : CG) (i : Nat) :
    frameView (wbStep ns gc i) = frameView gc := rfl

theorem foldl_wbStep_frame (ns : List Nat) :
    ∀ (idxs : List Nat) (gc : CG),
      frameView (idxs.foldl (wbStep ns) gc) = frameView gc := by
  intro idxs
  induction idxs with
  | nil => intro gc; rfl
  | cons i rest ih =>
    intro gc
    rw [List.foldl_cons]
    exact (ih (wbStep ns gc i)).trans (wbStep_frame ns gc i)

/-- C9: `topologicalSort` rewrites only the nodes' `prev` and `next`
fields; the anchor pointers `m_pNodeHead` and `m_pNodeRear` read by
`begin()` and by sequential traversal — and every other field of the
graph state — are left unchanged. -/
theorem anchors_unchanged (g : CG) :
    (topoSortG g).head = g.head ∧ (topoSortG g).rear = g.rear ∧
    frameView (topoSortG g) = frameView g := by
  have h : frameView (topoSortG g) = frameView g :=
    foldl_wbStep_frame (topoOrder (kgraphOf g)) _ g
  exact ⟨congrArg (fun t => t.1) h, congrArg (fun t => t.2.1) h, h⟩

/-- The two-node pointer state exhibiting the stale-head defect: nodes `0`
then `1` are inserted in that order (so `m_pNodeHead` is node `0`), and
node `1` produces value `10` consumed by node `0` — the only edge is
`1 → 0`. -/
def cgTwo : CG :=
  { head := some 0, rear := some 1,
    prevN := fun n => if n = 1 then some 0 else none,
    nextN := fun n => if n = 0 then some 1 else none,
    firstIn := fun _ => none, firstOut := fun _ => none,
    arcSrc := fun _ => 0, arcTgt := fun _ => 0,
    arcPrevIn := fun _ => none, arcNextIn := fun _ => none,
    arcPrevOut := fun _ => none, arcNextOut := fun _ => none,
    nodeList := [0, 1], arcList := [], liveArcs := [],
    inputs := fun n => if n = 0 then [10] else [],
    outputs := fun n => if n = 1 then [10] else [],
    users := fun v => if v = 10 then [0] else [] }

theorem cgTwo_order : topoOrder (kgraphOf cgTwo) = [1, 0] := by
  rw [topoOrder_eq _ (by decide)]
  rw [kahnLoop_eq_step _ _ _ _ _ (1, 1) (by decide)]
  rw [kahnLoop_eq_step _ _ _ _ _ (0, 0) (by decide)]
  rw [kahnLoop_eq_nil _ _ _ _ _ (by decide)]
  rfl

/-- C2: refuted.  On the acyclic two-node graph `cgTwo` the scheduler's
output sequence is `[1, 0]`, but the write-back loop never updates
`m_pNodeHead`, so after `topologicalSort` the traversal from `begin()`
still starts at the old head `0` — whose `next` is now null — and visits
only `[0]`, not the output sequence.  The spec's sentence "sequential
traversal from the graph's head visits exactly the scheduler's output
sequence in order" fails. -/
theorem traversal_bug :
    topoOrder (kgraphOf cgTwo) = [1, 0] ∧
    (topoSortG cgTwo).head = some 0 ∧
    walkFwd (topoSortG cgTwo) = [0] ∧
    walkFwd (topoSortG cgTwo) ≠ topoOrder (kgraphOf cgTwo) := by
  have hord := cgTwo_order
  have hfr : (topoSortG cgTwo).head = some 0 :=
    congrArg (fun t => t.1) (foldl_wbStep_frame (topoOrder (kgraphOf cgTwo)) _ cgTwo)
  have hwb : topoSortG cgTwo = writeBack cgTwo [1, 0] := by
    unfold topoSortG
    rw [hord]
  have hwalk : walkFwd (topoSortG cgTwo) = [0] := by
    rw [hwb]
    decide
  refine ⟨hord, hfr, hwalk, ?_⟩
  rw [hwalk, hord]
  decide

/-- C8: `erase(Value&)` refuses eagerly whenever the value still has a
definer or a non-empty use list — exactly one of the two assertion
messages surfaces, and the value table is not touched; the removal is
reached only when the value has no definer and no uses. -/
theorem eraseValue_refuses (vl : List (Nat × MValue)) (v : MValue) :
    (v.define ≠ none ∨ v.uses ≠ [] → ∃ msg, eraseValueG vl v = Except.error msg) ∧
    (v.define = none ∧ v.uses = [] →
      eraseValueG vl v = Except.ok (vl.filter (fun p => p.1 ≠ v.vname))) := by
  constructor
  · intro h
    unfold eraseValueG
    rcases h with h | h
    · rw [if_pos h]
      exact ⟨_, rfl⟩
    · by_cases hd : v.define ≠ none
      · rw [if_pos hd]
        exact ⟨_, rfl⟩
      · rw [if_neg hd, if_pos h]
        exact ⟨_, rfl⟩
  · intro ⟨h1, h2⟩
    unfold eraseValueG
    rw [if_neg (by simp [h1]), if_neg (by simp [h2])]

theorem eraseValue_refuses_witness :
    ∃ msg, eraseValueG [(5, MValue.mk 5 none [7])] (MValue.mk 5 none [7])
      = Except.error msg :=
  (eraseValue_refuses [(5, MValue.mk 5 none [7])] (MValue.mk 5 none [7])).1
    (Or.inr (by decide))

/-- The stability scenario of the spec: nodes `0, 1, 2` inserted in that
order, with edges `0 → 2` (value `100`) and `1 → 2` (value `101`). -/
def abcG : KGraph :=
  { seq := [0, 1, 2],
    inputs := fun n => if n = 2 then [100, 101] else [],
    outputs := fun n => if n = 0 then [100] else if n = 1 then [101] else [],
    users := fun v => if v = 100 then [2] else if v = 101 then [2] else [] }

theorem scheduler_correct_witness :
    KWf abcG ∧
    (∀ u ∈ abcG.seq, ∀ v ∈ abcG.seq, Edge abcG u v → u < v) ∧
    ((topoOrder abcG).Perm abcG.seq ∧
      ∀ u v, Edge abcG u v →
        (topoOrder abcG).indexOf u < (topoOrder abcG).indexOf v) :=
  ⟨by decide, by decide,
   scheduler_correct abcG (by decide) (fun n => n) (by decide)⟩

theorem indeg_records_incoming_witness :
    KWf abcG ∧ 2 ∈ abcG.seq ∧
    degGet (kahnInitGo abcG abcG.seq 0 ([], [], [])).1 2
      = (usesFrom abcG abcG.seq 2 : Int) :=
  ⟨by decide, by decide, indeg_records_incoming abcG (by decide) 2 (by decide)⟩

theorem scheduler_stability_witness :
    KWf abcG ∧
    ((kahnInitGo abcG abcG.seq 0 ([], [], [])).1,
     (kahnInitGo abcG abcG.seq 0 ([], [], [])).2.2,
     ([] : List NodeId)) ∈ topoTrace abcG ∧
    ((0, 0) : Nat × NodeId) ∈ (kahnInitGo abcG abcG.seq 0 ([], [], [])).2.2 ∧
    ((1, 1) : Nat × NodeId) ∈ (kahnInitGo abcG abcG.seq 0 ([], [], [])).2.2 ∧
    (0 : Nat) < 1 ∧
    (topoOrder abcG).indexOf 0 < (topoOrder abcG).indexOf 1 := by
  have hmem : ((kahnInitGo abcG abcG.seq 0 ([], [], [])).1,
      (kahnInitGo abcG abcG.seq 0 ([], [], [])).2.2,
      ([] : List NodeId)) ∈ topoTrace abcG :=
    kahnTrace_head abcG (kahnInitGo abcG abcG.seq 0 ([], [], [])).2.1
      (kahnInitGo abcG abcG.seq 0 ([], [], [])).1
      (kahnInitGo abcG abcG.seq 0 ([], [], [])).2.2 []
  exact ⟨by decide, hmem, by decide, by decide, by decide,
    scheduler_stability abcG (by decide) _ _ [] hmem 0 1 0 1
      (by decide) (by decide) (by decide)⟩

/-- A two-node cycle: node `0` feeds node `1` through value `200` and node
`1` feeds node `0` back through value `201`. -/
def cycG : KGraph :=
  { seq := [0, 1],
    inputs := fun n => if n = 0 then [201] else [200],
    outputs := fun n => if n = 0 then [200] else [201],
    users := fun v => if v = 200 then [1] else if v = 201 then [0] else [] }

theorem scheduler_cycle_drops_witness :
    KWf cycG ∧ IsCycle cycG [0, 1] ∧
    ((∀ n ∈ [0, 1], n ∉ topoOrder cycG) ∧
      (topoOrder cycG).length < cycG.seq.length) :=
  ⟨by decide, by decide, scheduler_cycle_drops cycG (by decide) [0, 1] (by decide)⟩

/-- A concrete valid edit script: insert `1`, insert `2`, erase `1`,
insert `3`. -/
def opsW : List GOp := [GOp.add 1, GOp.add 2, GOp.del 1, GOp.add 3]

theorem sequence_wellformed_witness :
    validOps [] opsW = true ∧
    ∃ l : List Nat, l.Nodup ∧
      walkFwd (applyOps emptyCG opsW) = l ∧
      walkBwd (applyOps emptyCG opsW) = l.reverse ∧
      (applyOps emptyCG opsW).head = l.head? ∧
      (applyOps emptyCG opsW).rear = l.getLast? ∧
      (∀ x, (applyOps emptyCG opsW).head = some x →
        (applyOps emptyCG opsW).prevN x = none) ∧
      (∀ x, (applyOps emptyCG opsW).rear = some x →
        (applyOps emptyCG opsW).nextN x = none) ∧
      (∀ p ∈ l.zip l.tail, (applyOps emptyCG opsW).nextN p.1 = some p.2 ∧
        (applyOps emptyCG opsW).prevN p.2 = some p.1) :=
  ⟨by decide, sequence_wellformed opsW (by decide)⟩

/-- The encoding of an intrusive arc chain: `first` points at the head of
`c`, whose members are linked in order through `nxt`/`prv`. -/
structure ChainEnc (nxt prv : Nat → Option Nat) (first : Option Nat)
    (c : List Nat) : Prop where
  nd : c.Nodup
  hd : first = c.head?
  links : Seg nxt prv none c none

/-- The four-pointer unlink surgery performed by `erase(ComputeOperand&)`
on one chain: writing `nxt a` into the predecessor slot (or the chain
head) and `prv a` into the successor slot removes `a` from the encoded
chain. -/
theorem chain_unlink (nxt prv : Nat → Option Nat) (first : Option Nat)
    (c : List Nat) (a : Nat) (henc : ChainEnc nxt prv first c) (ha : a ∈ c) :
    ChainEnc
      (match prv a with | some p => upd nxt p (nxt a) | none => nxt)
      (match nxt a with | some q => upd prv q (prv a) | none => prv)
      (match prv a with | some _ => first | none => nxt a)
      (c.erase a) := by
  obtain ⟨c1, c2, rfl⟩ := List.append_of_mem ha
  have hnd := henc.nd
  have ha1 : a ∉ c1 := fun hc =>
    (List.disjoint_of_nodup_append hnd) hc (List.mem_cons_self _ _)
  have ha2 : a ∉ c2 := (List.nodup_cons.mp hnd.of_append_right).1
  have herase : (c1 ++ a :: c2).erase a = c1 ++ c2 := by
    rw [List.erase_append_right _ ha1, List.erase_cons_head]
  rw [herase]
  obtain ⟨hseg1, hseg2⟩ :=
    (seg_append nxt prv c1 none (a :: c2) none).mp henc.links
  obtain ⟨hprva, hnxta, hseg2'⟩ := hseg2
  have hc1nd : c1.Nodup := hnd.of_append_left
  have hc2nd : c2.Nodup := (List.nodup_cons.mp hnd.of_append_right).2
  have hdisj12 : ∀ x ∈ c1, x ∉ c2 := fun x hx hc =>
    (List.disjoint_of_nodup_append hnd) hx (List.mem_cons_of_mem _ hc)
  have hndnew : (c1 ++ c2).Nodup :=
    hnd.sublist (List.Sublist.append_left (List.sublist_cons_self a c2) c1)
  cases hll : c1.getLast? with
  | none =>
    have hc1e : c1 = [] := getLast?_none_nil hll
    subst hc1e
    have hprva' : prv a = none := by rw [hprva, lastO_nil]
    simp only [hprva', List.nil_append]
    cases c2 with
    | nil =>
      have hnxta' : nxt a = none := hnxta
      simp only [hnxta']
      exact ⟨List.nodup_nil, rfl, trivial⟩
    | cons y c2' =>
      have hnxta' : nxt a = some y := hnxta
      simp only [hnxta']
      obtain ⟨hprvy, hnxty, hseg3⟩ := hseg2'
      refine ⟨hndnew, rfl, ?_⟩
      refine ⟨by rw [upd_self], hnxty, ?_⟩
      refine seg_ext nxt prv _ _ c2' (some y) none hseg3 ?_
      intro z hz
      have hyz : ¬ (z = y) := fun hc =>
        (List.nodup_cons.mp hc2nd).1 (hc ▸ hz)
      exact ⟨rfl, upd_ne _ _ _ _ hyz⟩
  | some p =>
    have hlastO : lastO c1 none = some p := by simp [lastO, hll]
    have hprva' : prv a = some p := by rw [hprva, hlastO]
    have hc1ne : c1 ≠ [] := by
      intro hc
      subst hc
      simp at hll
    have hpmem : p ∈ c1 := mem_of_getLast?_eq hll
    have hpa : ¬ (p = a) := fun hc => ha1 (hc ▸ hpmem)
    simp only [hprva']
    have hhd : first = (c1 ++ c2).head? := by
      rw [henc.hd, head?_append_left c1 _ hc1ne, head?_append_left c1 _ hc1ne]
    cases c2 with
    | nil =>
      have hnxta' : nxt a = none := hnxta
      simp only [hnxta']
      refine ⟨hndnew, hhd, ?_⟩
      rw [seg_append]
      refine ⟨?_, trivial⟩
      have hretarget := seg_retarget nxt prv c1 none p (some a) none hseg1 hll hc1nd
      exact hretarget
    | cons y c2' =>
      have hnxta' : nxt a = some y := hnxta
      simp only [hnxta']
      obtain ⟨hprvy, hnxty, hseg3⟩ := hseg2'
      have hyl2' : y ∉ c2' := (List.nodup_cons.mp hc2nd).1
      have hpy : ¬ (y = p) := fun hc =>
        hdisj12 p hpmem (hc ▸ List.mem_cons_self y c2')
      refine ⟨hndnew, hhd, ?_⟩
      rw [seg_append]
      constructor
      · have hretarget := seg_retarget nxt prv c1 none p (some a) (some y)
          hseg1 hll hc1nd
        refine seg_ext (upd nxt p (some y)) prv _ _ c1 none (some y) hretarget ?_
        intro z hz
        refine ⟨rfl, upd_ne _ _ _ _ ?_⟩
        intro hc
        exact hdisj12 z hz (hc ▸ List.mem_cons_self y c2')
      · rw [hlastO]
        refine ⟨by rw [upd_self], ?_, ?_⟩
        · rw [upd_ne _ _ _ _ hpy]
          exact hnxty
        · refine seg_ext nxt prv _ _ c2' (some y) none hseg3 ?_
          intro z hz
          constructor
          · refine upd_ne _ _ _ _ ?_
            intro hc
            exact hdisj12 p hpmem (hc ▸ List.mem_cons_of_mem y hz)
          · refine upd_ne _ _ _ _ ?_
            intro hc
            exact hyl2' (hc ▸ hz)

theorem chainEnc_prv_props (nxt prv : Nat → Option Nat) (first : Option Nat)
    (c : List Nat) (a : Nat) (henc : ChainEnc nxt prv first c) (ha : a ∈ c) :
    prv a = none ∨ ∃ p, prv a = some p ∧ p ∈ c ∧ ¬ (p = a) := by
  obtain ⟨c1, c2, rfl⟩ := List.append_of_mem ha
  have ha1 : a ∉ c1 := fun hc =>
    (List.disjoint_of_nodup_append henc.nd) hc (List.mem_cons_self _ _)
  obtain ⟨hseg1, hseg2⟩ :=
    (seg_append nxt prv c1 none (a :: c2) none).mp henc.links
  obtain ⟨hprva, _, _⟩ := hseg2
  cases hll : c1.getLast? with
  | none =>
    left
    rw [hprva]
    have : c1 = [] := getLast?_none_nil hll
    rw [this, lastO_nil]
  | some p =>
    right
    refine ⟨p, ?_, ?_, ?_⟩
    · rw [hprva]
      simp [lastO, hll]
    · exact List.mem_append_left _ (mem_of_getLast?_eq hll)
    · intro hc
      exact ha1 (hc ▸ mem_of_getLast?_eq hll)

theorem chainEnc_nxt_props (nxt prv : Nat → Option Nat) (first : Option Nat)
    (c : List Nat) (a : Nat) (henc : ChainEnc nxt prv first c) (ha : a ∈ c) :
    nxt a = none ∨ ∃ q, nxt a = some q ∧ q ∈ c ∧ ¬ (q = a) := by
  obtain ⟨c1, c2, rfl⟩ := List.append_of_mem ha
  have ha2 : a ∉ c2 := (List.nodup_cons.mp henc.nd.of_append_right).1
  obtain ⟨hseg1, hseg2⟩ :=
    (seg_append nxt prv c1 none (a :: c2) none).mp henc.links
  obtain ⟨_, hnxta, _⟩ := hseg2
  cases c2 with
  | nil =>
    left
    exact hnxta
  | cons y c2' =>
    right
    refine ⟨y, hnxta, ?_, ?_⟩
    · exact List.mem_append_right _ (List.mem_cons_of_mem a (List.mem_cons_self y c2'))
    · intro hc
      exact ha2 (hc ▸ List.mem_cons_self y c2')

/-- The arc-chain fields written by the fan-out unlink (lines 86-95), as
functions of the pre-state, provided the arc is not its own predecessor. -/
theorem arcOutUnlink_fields (g : CG) (a : Nat) (hpa : ¬ (g.arcPrevOut a = some a)) :
    (arcOutUnlink g a).arcNextOut
      = (match g.arcPrevOut a with
         | some p => upd g.arcNextOut p (g.arcNextOut a)
         | none => g.arcNextOut) ∧
    (arcOutUnlink g a).arcPrevOut
      = (match g.arcNextOut a with
         | some q => upd g.arcPrevOut q (g.arcPrevOut a)
         | none => g.arcPrevOut) ∧
    (arcOutUnlink g a).firstOut
      = (match g.arcPrevOut a with
         | some _ => g.firstOut
         | none => upd g.firstOut (g.arcSrc a) (g.arcNextOut a)) := by
  cases hP : g.arcPrevOut a with
  | some p =>
    have hap : ¬ (a = p) := fun hc => hpa (by rw [← hc] at hP; exact hP)
    unfold arcOutUnlink
    simp only [hP]
    rw [upd_ne _ _ _ _ hap]
    cases hN : g.arcNextOut a <;> simp only [hN] <;>
      refine ⟨?_, ?_, ?_⟩ <;> first | rfl | trivial
  | none =>
    unfold arcOutUnlink
    simp only [hP]
    cases hN : g.arcNextOut a <;> simp only [hN] <;>
      refine ⟨?_, ?_, ?_⟩ <;> first | rfl | trivial

/-- The arc-chain fields written by the fan-in unlink (lines 98-107). -/
theorem arcInUnlink_fields (g : CG) (a : Nat) (hpa : ¬ (g.arcPrevIn a = some a)) :
    (arcInUnlink g a).arcNextIn
      = (match g.arcPrevIn a with
         | some p => upd g.arcNextIn p (g.arcNextIn a)
         | none => g.arcNextIn) ∧
    (arcInUnlink g a).arcPrevIn
      = (match g.arcNextIn a with
         | some q => upd g.arcPrevIn q (g.arcPrevIn a)
         | none => g.arcPrevIn) ∧
    (arcInUnlink g a).firstIn
      = (match g.arcPrevIn a with
         | some _ => g.firstIn
         | none => upd g.firstIn (g.arcTgt a) (g.arcNextIn a)) := by
  cases hP : g.arcPrevIn a with
  | some p =>
    have hap : ¬ (a = p) := fun hc => hpa (by rw [← hc] at hP; exact hP)
    unfold arcInUnlink
    simp only [hP]
    rw [upd_ne _ _ _ _ hap]
    cases hN : g.arcNextIn a <;> simp only [hN] <;>
      refine ⟨?_, ?_, ?_⟩ <;> first | rfl | trivial
  | none =>
    unfold arcInUnlink
    simp only [hP]
    cases hN : g.arcNextIn a <;> simp only [hN] <;>
      refine ⟨?_, ?_, ?_⟩ <;> first | rfl | trivial

/-- The pointer fields of `eraseArcG` in terms of the two unlink stages:
the fan-in stage and the final bookkeeping step do not touch the fan-out
fields, and vice versa. -/
theorem eraseArcG_chainFields (g : CG) (a : Nat) :
    (eraseArcG g a).arcNextOut = (arcOutUnlink g a).arcNextOut ∧
    (eraseArcG g a).arcPrevOut = (arcOutUnlink g a).arcPrevOut ∧
    (eraseArcG g a).firstOut = (arcOutUnlink g a).firstOut ∧
    (eraseArcG g a).arcNextIn = (arcInUnlink (arcOutUnlink g a) a).arcNextIn ∧
    (eraseArcG g a).arcPrevIn = (arcInUnlink (arcOutUnlink g a) a).arcPrevIn ∧
    (eraseArcG g a).firstIn = (arcInUnlink (arcOutUnlink g a) a).firstIn := by
  obtain ⟨_, _, _, _, _, _, _, _, _, _, iFO, iPO, iNO, _, _⟩ :=
    arcInUnlink_frame (arcOutUnlink g a) a
  by_cases hm : a ∈ (arcInUnlink (arcOutUnlink g a) a).arcList
  · rw [(eraseArcG_listIf g a).1 hm]
    exact ⟨iNO, iPO, iFO, rfl, rfl, rfl⟩
  · rw [(eraseArcG_listIf g a).2 hm]
    exact ⟨iNO, iPO, iFO, rfl, rfl, rfl⟩

/-- The bookkeeping step of `eraseArcG`: the arc list and the live set are
rewritten exactly when the arc is found in `m_ArcList`. -/
theorem eraseArcG_lists (g : CG) (a : Nat) :
    (a ∈ g.arcList →
      (eraseArcG g a).arcList = g.arcList.erase a ∧
      (eraseArcG g a).liveArcs = g.liveArcs.erase a) ∧
    (a ∉ g.arcList →
      (eraseArcG g a).arcList = g.arcList ∧
      (eraseArcG g a).liveArcs = g.liveArcs) := by
  obtain ⟨_, _, _, _, _, _, _, _, _, _, _, _, _, oAL, oLA⟩ := arcOutUnlink_frame g a
  obtain ⟨_, _, _, _, _, _, _, _, _, _, _, _, _, iAL, iLA⟩ :=
    arcInUnlink_frame (arcOutUnlink g a) a
  have hAL : (arcInUnlink (arcOutUnlink g a) a).arcList = g.arcList := iAL.trans oAL
  have hLA : (arcInUnlink (arcOutUnlink g a) a).liveArcs = g.liveArcs := iLA.trans oLA
  constructor
  · intro h
    rw [(eraseArcG_listIf g a).1 (by rw [hAL]; exact h)]
    exact ⟨by rw [hAL], by rw [hLA]⟩
  · intro h
    rw [(eraseArcG_listIf g a).2 (by rw [hAL]; exact h)]
    exact ⟨hAL, hLA⟩

/-- The fan-out chain of the arc's source after `eraseArcG`: the arc is
unlinked whether or not it was found in the arc list. -/
theorem eraseArcG_out_chain (g : CG) (a : Nat) (c : List Nat)
    (henc : ChainEnc g.arcNextOut g.arcPrevOut (g.firstOut (g.arcSrc a)) c)
    (ha : a ∈ c) :
    ChainEnc (eraseArcG g a).arcNextOut (eraseArcG g a).arcPrevOut
      ((eraseArcG g a).firstOut (g.arcSrc a)) (c.erase a) := by
  have hpa : ¬ (g.arcPrevOut a = some a) := by
    intro hc
    rcases chainEnc_prv_props _ _ _ c a henc ha with h | ⟨p, hp, _, hpne⟩
    · rw [h] at hc
      cases hc
    · rw [hp] at hc
      injection hc with h1
      exact hpne h1
  obtain ⟨hNO, hPO, hFO⟩ := arcOutUnlink_fields g a hpa
  obtain ⟨e1, e2, e3, _, _, _⟩ := eraseArcG_chainFields g a
  have hcu := chain_unlink g.arcNextOut g.arcPrevOut (g.firstOut (g.arcSrc a))
    c a henc ha
  rw [e1, e2, e3, hNO, hPO, hFO]
  cases hP : g.arcPrevOut a with
  | some p =>
    simp only [hP] at hcu ⊢
    exact hcu
  | none =>
    simp only [hP] at hcu ⊢
    rw [upd_self]
    exact hcu

/-- The fan-in chain of the arc's target after `eraseArcG`. -/
theorem eraseArcG_in_chain (g : CG) (a : Nat) (c : List Nat)
    (henc : ChainEnc g.arcNextIn g.arcPrevIn (g.firstIn (g.arcTgt a)) c)
    (ha : a ∈ c) :
    ChainEnc (eraseArcG g a).arcNextIn (eraseArcG g a).arcPrevIn
      ((eraseArcG g a).firstIn (g.arcTgt a)) (c.erase a) := by
  obtain ⟨o1, o2, o3, o4, o5, o6, oT, o8, o9, o10, oFI, oPI, oNI, _, _⟩ :=
    arcOutUnlink_frame g a
  have hpa : ¬ ((arcOutUnlink g a).arcPrevIn a = some a) := by
    rw [oPI]
    intro hc
    rcases chainEnc_prv_props _ _ _ c a henc ha with h | ⟨p, hp, _, hpne⟩
    · rw [h] at hc
      cases hc
    · rw [hp] at hc
      injection hc with h1
      exact hpne h1
  obtain ⟨hNI, hPI, hFI⟩ := arcInUnlink_fields (arcOutUnlink g a) a hpa
  rw [oPI, oNI] at hNI
  rw [oNI, oPI] at hPI
  rw [oPI, oNI, oFI, oT] at hFI
  obtain ⟨_, _, _, e4, e5, e6⟩ := eraseArcG_chainFields g a
  have hcu := chain_unlink g.arcNextIn g.arcPrevIn (g.firstIn (g.arcTgt a))
    c a henc ha
  rw [e4, e5, e6, hNI, hPI, hFI]
  cases hP : g.arcPrevIn a with
  | some p =>
    simp only [hP] at hcu ⊢
    exact hcu
  | none =>
    simp only [hP] at hcu ⊢
    rw [upd_self]
    exact hcu

theorem chainEnc_walk (nxt prv : Nat → Option Nat) (first : Option Nat)
    (c : List Nat) (fuel : Nat) (henc : ChainEnc nxt prv first c)
    (hlen : c.length ≤ fuel) : walkNext nxt first fuel = c := by
  rw [henc.hd]
  exact walk_of_seg nxt prv c none fuel henc.links hlen

/-- C10: `erase(ComputeOperand&)` always unlinks the arc from its source
fan-out chain and its target fan-in chain — even when the arc is absent
from `m_ArcList`; the arc-list entry is removed and the storage released
(dropped from the live set) exactly when the arc is found in the list. -/
theorem eraseArc_unlinks_always (g : CG) (a : Nat) (cOut cIn : List Nat)
    (houtEnc : ChainEnc g.arcNextOut g.arcPrevOut (g.firstOut (g.arcSrc a)) cOut)
    (hinEnc : ChainEnc g.arcNextIn g.arcPrevIn (g.firstIn (g.arcTgt a)) cIn)
    (haO : a ∈ cOut) (haI : a ∈ cIn)
    (hlO : cOut.length ≤ g.arcList.length)
    (hlI : cIn.length ≤ g.arcList.length) :
    chainOut (eraseArcG g a) (g.arcSrc a) = cOut.erase a ∧
    chainIn (eraseArcG g a) (g.arcTgt a) = cIn.erase a ∧
    (a ∉ g.arcList →
      (eraseArcG g a).arcList = g.arcList ∧
      (eraseArcG g a).liveArcs = g.liveArcs) ∧
    (a ∈ g.arcList →
      (eraseArcG g a).arcList = g.arcList.erase a ∧
      (eraseArcG g a).liveArcs = g.liveArcs.erase a) := by
  have hout := eraseArcG_out_chain g a cOut houtEnc haO
  have hin := eraseArcG_in_chain g a cIn hinEnc haI
  have hlen : (eraseArcG g a).arcList.length = g.arcList.length ∨
      ((eraseArcG g a).arcList.length = g.arcList.length - 1 ∧ a ∈ g.arcList) := by
    by_cases hm : a ∈ g.arcList
    · right
      rw [((eraseArcG_lists g a).1 hm).1]
      exact ⟨List.length_erase_of_mem hm, hm⟩
    · left
      rw [((eraseArcG_lists g a).2 hm).1]
  have hlO' : (cOut.erase a).length ≤ (eraseArcG g a).arcList.length := by
    have h1 := List.length_erase_of_mem haO
    have h2 := List.length_pos.mpr (List.ne_nil_of_mem haO)
    rcases hlen with h | ⟨h, hm⟩
    · omega
    · have h3 := List.length_pos.mpr (List.ne_nil_of_mem hm)
      omega
  have hlI' : (cIn.erase a).length ≤ (eraseArcG g a).arcList.length := by
    have h1 := List.length_erase_of_mem haI
    have h2 := List.length_pos.mpr (List.ne_nil_of_mem haI)
    rcases hlen with h | ⟨h, hm⟩
    · omega
    · have h3 := List.length_pos.mpr (List.ne_nil_of_mem hm)
      omega
  refine ⟨?_, ?_, (eraseArcG_lists g a).2, (eraseArcG_lists g a).1⟩
  · unfold chainOut
    exact chainEnc_walk _ _ _ _ _ hout hlO'
  · unfold chainIn
    exact chainEnc_walk _ _ _ _ _ hin hlI'

/-- A state with one live arc (`7`, from node `0` to node `1`) that is
absent from `m_ArcList`, which holds only the unrelated arc `8`. -/
def gW : CG :=
  { head := none, rear := none, prevN := fun _ => none, nextN := fun _ => none,
    firstIn := fun m => if m = 1 then some 7 else none,
    firstOut := fun m => if m = 0 then some 7 else none,
    arcSrc := fun _ => 0, arcTgt := fun _ => 1,
    arcPrevIn := fun _ => none, arcNextIn := fun _ => none,
    arcPrevOut := fun _ => none, arcNextOut := fun _ => none,
    nodeList := [0, 1], arcList := [8], liveArcs := [7, 8],
    inputs := fun _ => [], outputs := fun _ => [], users := fun _ => [] }

theorem eraseArc_unlinks_always_witness :
    chainOut (eraseArcG gW 7) (gW.arcSrc 7) = [] ∧
    chainIn (eraseArcG gW 7) (gW.arcTgt 7) = [] ∧
    (eraseArcG gW 7).arcList = gW.arcList ∧
    (eraseArcG gW 7).liveArcs = gW.liveArcs := by
  have h := eraseArc_unlinks_always gW 7 [7] [7]
    ⟨by decide, rfl, ⟨rfl, rfl, trivial⟩⟩ ⟨by decide, rfl, ⟨rfl, rfl, trivial⟩⟩
    (by decide) (by decide) (by decide) (by decide)
  have hnot : (7 : Nat) ∉ gW.arcList := by decide
  exact ⟨h.1.trans (by decide), h.2.1.trans (by decide),
    (h.2.2.1 hnot).1, (h.2.2.1 hnot).2⟩

/-- The fan-out fields of `eraseArcG` as functions of the pre-state. -/
theorem eraseArcG_out_fields (g : CG) (a : Nat) (hpa : ¬ (g.arcPrevOut a = some a)) :
    (eraseArcG g a).arcNextOut
      = (match g.arcPrevOut a with
         | some p => upd g.arcNextOut p (g.arcNextOut a)
         | none => g.arcNextOut) ∧
    (eraseArcG g a).arcPrevOut
      = (match g.arcNextOut a with
         | some q => upd g.arcPrevOut q (g.arcPrevOut a)
         | none => g.arcPrevOut) ∧
    (eraseArcG g a).firstOut
      = (match g.arcPrevOut a with
         | some _ => g.firstOut
         | none => upd g.firstOut (g.arcSrc a) (g.arcNextOut a)) := by
  obtain ⟨e1, e2, e3, _, _, _⟩ := eraseArcG_chainFields g a
  obtain ⟨hNO, hPO, hFO⟩ := arcOutUnlink_fields g a hpa
  exact ⟨e1.trans hNO, e2.trans hPO, e3.trans hFO⟩

/-- The fan-in fields of `eraseArcG` as functions of the pre-state. -/
theorem eraseArcG_in_fields (g : CG) (a : Nat) (hpa : ¬ (g.arcPrevIn a = some a)) :
    (eraseArcG g a).arcNextIn
      = (match g.arcPrevIn a with
         | some p => upd g.arcNextIn p (g.arcNextIn a)
         | none => g.arcNextIn) ∧
    (eraseArcG g a).arcPrevIn
      = (match g.arcNextIn a with
         | some q => upd g.arcPrevIn q (g.arcPrevIn a)
         | none => g.arcPrevIn) ∧
    (eraseArcG g a).firstIn
      = (match g.arcPrevIn a with
         | some _ => g.firstIn
         | none => upd g.firstIn (g.arcTgt a) (g.arcNextIn a)) := by
  obtain ⟨o1, o2, o3, o4, o5, o6, oT, o8, o9, o10, oFI, oPI, oNI, _, _⟩ :=
    arcOutUnlink_frame g a
  obtain ⟨_, _, _, e4, e5, e6⟩ := eraseArcG_chainFields g a
  obtain ⟨hNI, hPI, hFI⟩ := arcInUnlink_fields (arcOutUnlink g a) a
    (by rw [oPI]; exact hpa)
  rw [oPI, oNI] at hNI
  rw [oNI, oPI] at hPI
  rw [oPI, oNI, oFI, oT] at hFI
  exact ⟨e4.trans hNI, e5.trans hPI, e6.trans hFI⟩

theorem chainEnc_prv_ne (nxt prv : Nat → Option Nat) (first : Option Nat)
    (c : List Nat) (a : Nat) (henc : ChainEnc nxt prv first c) (ha : a ∈ c) :
    ¬ (prv a = some a) := by
  intro hc
  rcases chainEnc_prv_props nxt prv first c a henc ha with h | ⟨p, hp, _, hpne⟩
  · rw [h] at hc
    cases hc
  · rw [hp] at hc
    injection hc with h1
    exact hpne h1

/-- A fan-in chain that does not belong to the erased arc's target is not
touched by `eraseArcG`. -/
theorem eraseArcG_in_chain_other (g : CG) (a m : Nat) (cT c : List Nat)
    (hencT : ChainEnc g.arcNextIn g.arcPrevIn (g.firstIn (g.arcTgt a)) cT)
    (haT : a ∈ cT)
    (henc : ChainEnc g.arcNextIn g.arcPrevIn (g.firstIn m) c)
    (hm : ¬ (m = g.arcTgt a))
    (hdisj : ∀ x ∈ c, x ∉ cT) :
    ChainEnc (eraseArcG g a).arcNextIn (eraseArcG g a).arcPrevIn
      ((eraseArcG g a).firstIn m) c := by
  have hpa := chainEnc_prv_ne _ _ _ cT a hencT haT
  obtain ⟨hNI, hPI, hFI⟩ := eraseArcG_in_fields g a hpa
  refine ⟨henc.nd, ?_, ?_⟩
  · cases hP : g.arcPrevIn a with
    | some p =>
      rw [hFI]
      simp only [hP]
      exact henc.hd
    | none =>
      rw [hFI]
      simp only [hP]
      rw [upd_ne _ _ _ _ hm]
      exact henc.hd
  · rw [hNI, hPI]
    refine seg_ext g.arcNextIn g.arcPrevIn _ _ c none none henc.links ?_
    intro z hz
    constructor
    · cases hP : g.arcPrevIn a with
      | some p =>
        rcases chainEnc_prv_props _ _ _ cT a hencT haT with h | ⟨p', hp', hpm, _⟩
        · rw [h] at hP
          cases hP
        · rw [hp'] at hP
          injection hP with h1
          refine upd_ne _ _ _ _ ?_
          intro hc
          exact hdisj z hz (by rw [hc, ← h1]; exact hpm)
      | none => rfl
    · cases hN : g.arcNextIn a with
      | some q =>
        rcases chainEnc_nxt_props _ _ _ cT a hencT haT with h | ⟨q', hq', hqm, _⟩
        · rw [h] at hN
          cases hN
        · rw [hq'] at hN
          injection hN with h1
          refine upd_ne _ _ _ _ ?_
          intro hc
          exact hdisj z hz (by rw [hc, ← h1]; exact hqm)
      | none => rfl

/-- A fan-out chain that does not belong to the erased arc's source is not
touched by `eraseArcG`. -/
theorem eraseArcG_out_chain_other (g : CG) (a m : Nat) (cS c : List Nat)
    (hencS : ChainEnc g.arcNextOut g.arcPrevOut (g.firstOut (g.arcSrc a)) cS)
    (haS : a ∈ cS)
    (henc : ChainEnc g.arcNextOut g.arcPrevOut (g.firstOut m) c)
    (hm : ¬ (m = g.arcSrc a))
    (hdisj : ∀ x ∈ c, x ∉ cS) :
    ChainEnc (eraseArcG g a).arcNextOut (eraseArcG g a).arcPrevOut
      ((eraseArcG g a).firstOut m) c := by
  have hpa := chainEnc_prv_ne _ _ _ cS a hencS haS
  obtain ⟨hNO, hPO, hFO⟩ := eraseArcG_out_fields g a hpa
  refine ⟨henc.nd, ?_, ?_⟩
  · cases hP : g.arcPrevOut a with
    | some p =>
      rw [hFO]
      simp only [hP]
      exact henc.hd
    | none =>
      rw [hFO]
      simp only [hP]
      rw [upd_ne _ _ _ _ hm]
      exact henc.hd
  · rw [hNO, hPO]
    refine seg_ext g.arcNextOut g.arcPrevOut _ _ c none none henc.links ?_
    intro z hz
    constructor
    · cases hP : g.arcPrevOut a with
      | some p =>
        rcases chainEnc_prv_props _ _ _ cS a hencS haS with h | ⟨p', hp', hpm, _⟩
        · rw [h] at hP
          cases hP
        · rw [hp'] at hP
          injection hP with h1
          refine upd_ne _ _ _ _ ?_
          intro hc
          exact hdisj z hz (by rw [hc, ← h1]; exact hpm)
      | none => rfl
    · cases hN : g.arcNextOut a with
      | some q =>
        rcases chainEnc_nxt_props _ _ _ cS a hencS haS with h | ⟨q', hq', hqm, _⟩
        · rw [h] at hN
          cases hN
        · rw [hq'] at hN
          injection hN with h1
          refine upd_ne _ _ _ _ ?_
          intro hc
          exact hdisj z hz (by rw [hc, ← h1]; exact hqm)
      | none => rfl

/-- The arc-chain well-formedness invariant: `inL m`/`outL m` list each
node's fan-in/fan-out chain contents; chains are encoded in the pointer
fields, own their arcs (the target/source of a chained arc is the chain's
node), each arc sits in both its source's out-chain and its target's
in-chain, chained arcs are registered in `m_ArcList`, and the bookkeeping
lists are duplicate-free. -/
structure ArcInv (g : CG) (inL outL : Nat → List Nat) : Prop where
  inEnc : ∀ m, ChainEnc g.arcNextIn g.arcPrevIn (g.firstIn m) (inL m)
  outEnc : ∀ m, ChainEnc g.arcNextOut g.arcPrevOut (g.firstOut m) (outL m)
  inOwn : ∀ m, ∀ x ∈ inL m, g.arcTgt x = m
  outOwn : ∀ m, ∀ x ∈ outL m, g.arcSrc x = m
  inCorr : ∀ m, ∀ x ∈ inL m, x ∈ outL (g.arcSrc x)
  outCorr : ∀ m, ∀ x ∈ outL m, x ∈ inL (g.arcTgt x)
  inArc : ∀ m, ∀ x ∈ inL m, x ∈ g.arcList
  outArc : ∀ m, ∀ x ∈ outL m, x ∈ g.arcList
  arcNd : g.arcList.Nodup
  liveNd : g.liveArcs.Nodup

/-- Erasing one chained arc preserves the invariant: the arc disappears
from both its chains, every other chain is untouched, and the arc is
removed from the arc list and the live set. -/
theorem arcInv_erase (g : CG) (inL outL : Nat → List Nat) (a : Nat)
    (hinv : ArcInv g inL outL) (ha : a ∈ inL (g.arcTgt a)) :
    ArcInv (eraseArcG g a) (fun m => (inL m).erase a) (fun m => (outL m).erase a) ∧
    (eraseArcG g a).arcList = g.arcList.erase a ∧
    (eraseArcG g a).liveArcs = g.liveArcs.erase a := by
  have haO : a ∈ outL (g.arcSrc a) := hinv.inCorr _ a ha
  obtain ⟨f1, f2, f3, f4, f5, fS, fT, f8, f9, f10⟩ := eraseArcG_frame g a
  have haL : a ∈ g.arcList := hinv.inArc _ a ha
  have hlists := (eraseArcG_lists g a).1 haL
  refine ⟨⟨?_, ?_, ?_, ?_, ?_, ?_, ?_, ?_, ?_, ?_⟩, hlists.1, hlists.2⟩
  · intro m
    show ChainEnc _ _ _ ((inL m).erase a)
    by_cases hm : m = g.arcTgt a
    · subst hm
      exact eraseArcG_in_chain g a (inL (g.arcTgt a)) (hinv.inEnc _) ha
    · have hnomem : a ∉ inL m := fun hc => hm (hinv.inOwn m a hc).symm
      rw [List.erase_of_not_mem hnomem]
      refine eraseArcG_in_chain_other g a m (inL (g.arcTgt a)) (inL m)
        (hinv.inEnc _) ha (hinv.inEnc _) hm ?_
      intro x hx hxc
      exact hm ((hinv.inOwn m x hx).symm.trans (hinv.inOwn _ x hxc))
  · intro m
    show ChainEnc _ _ _ ((outL m).erase a)
    by_cases hm : m = g.arcSrc a
    · subst hm
      exact eraseArcG_out_chain g a (outL (g.arcSrc a)) (hinv.outEnc _) haO
    · have hnomem : a ∉ outL m := fun hc => hm (hinv.outOwn m a hc).symm
      rw [List.erase_of_not_mem hnomem]
      refine eraseArcG_out_chain_other g a m (outL (g.arcSrc a)) (outL m)
        (hinv.outEnc _) haO (hinv.outEnc _) hm ?_
      intro x hx hxc
      exact hm ((hinv.outOwn m x hx).symm.trans (hinv.outOwn _ x hxc))
  · intro m x hx
    rw [fT]
    exact hinv.inOwn m x (List.mem_of_mem_erase hx)
  · intro m x hx
    rw [fS]
    exact hinv.outOwn m x (List.mem_of_mem_erase hx)
  · intro m x hx
    have hxm := List.mem_of_mem_erase hx
    have hxa : x ≠ a := (((hinv.inEnc m).nd).mem_erase_iff.mp hx).1
    rw [fS]
    exact (List.mem_erase_of_ne hxa).mpr (hinv.inCorr m x hxm)
  · intro m x hx
    have hxm := List.mem_of_mem_erase hx
    have hxa : x ≠ a := (((hinv.outEnc m).nd).mem_erase_iff.mp hx).1
    rw [fT]
    exact (List.mem_erase_of_ne hxa).mpr (hinv.outCorr m x hxm)
  · intro m x hx
    have hxm := List.mem_of_mem_erase hx
    have hxa : x ≠ a := (((hinv.inEnc m).nd).mem_erase_iff.mp hx).1
    rw [hlists.1]
    exact (List.mem_erase_of_ne hxa).mpr (hinv.inArc m x hxm)
  · intro m x hx
    have hxm := List.mem_of_mem_erase hx
    have hxa : x ≠ a := (((hinv.outEnc m).nd).mem_erase_iff.mp hx).1
    rw [hlists.1]
    exact (List.mem_erase_of_ne hxa).mpr (hinv.outArc m x hxm)
  · rw [hlists.1]
    exact hinv.arcNd.erase a
  · rw [hlists.2]
    exact hinv.liveNd.erase a

theorem eraseFanIn_none (g : CG) (fuel : Nat) : eraseFanIn g none fuel = g := by
  cases fuel <;> rfl

theorem eraseFanOut_none (g : CG) (fuel : Nat) : eraseFanOut g none fuel = g := by
  cases fuel <;> rfl

theorem nodup_subset_length {l1 l2 : List Nat} (h1 : l1.Nodup)
    (hsub : ∀ x ∈ l1, x ∈ l2) : l1.length ≤ l2.length :=
  (h1.subperm hsub).length_le

/-- Running the fan-in removal loop over node `n`'s whole chain: the chain
empties, every chain arc is deleted, all other chains only lose those
arcs, and the invariant is maintained. -/
theorem eraseFanIn_run :
    ∀ (c : List Nat) (g : CG) (inL outL : Nat → List Nat) (n : Nat) (fuel : Nat),
      ArcInv g inL outL → inL n = c → c.length ≤ fuel →
      ∃ inL2 outL2,
        ArcInv (eraseFanIn g (g.firstIn n) fuel) inL2 outL2 ∧
        inL2 n = [] ∧
        (∀ m x, x ∈ inL2 m → x ∈ inL m) ∧
        (∀ m x, x ∈ outL2 m → x ∈ outL m) ∧
        (∀ m x, x ∈ inL m →
          x ∈ inL2 m ∨ x ∉ (eraseFanIn g (g.firstIn n) fuel).liveArcs) ∧
        (∀ m x, x ∈ outL m →
          x ∈ outL2 m ∨ x ∉ (eraseFanIn g (g.firstIn n) fuel).liveArcs) ∧
        (∀ x ∈ c, x ∉ (eraseFanIn g (g.firstIn n) fuel).liveArcs) ∧
        (∀ x, x ∈ (eraseFanIn g (g.firstIn n) fuel).liveArcs → x ∈ g.liveArcs) := by
  intro c
  induction c with
  | nil =>
    intro g inL outL n fuel hinv hin _
    have hfi : g.firstIn n = none := by
      rw [(hinv.inEnc n).hd, hin]
      rfl
    rw [hfi, eraseFanIn_none]
    exact ⟨inL, outL, hinv, hin, fun m x h => h, fun m x h => h,
      fun m x h => Or.inl h, fun m x h => Or.inl h,
      by intro x hx; simp at hx, fun x h => h⟩
  | cons a rest ih =>
    intro g inL outL n fuel hinv hin hlen
    cases fuel with
    | zero => simp at hlen
    | succ f =>
      have hencN := hinv.inEnc n
      have hfi : g.firstIn n = some a := by
        rw [hencN.hd, hin]
        rfl
      have hamem : a ∈ inL n := by
        rw [hin]
        exact List.mem_cons_self a rest
      have htgt : g.arcTgt a = n := hinv.inOwn n a hamem
      have hamem' : a ∈ inL (g.arcTgt a) := by
        rw [htgt]
        exact hamem
      obtain ⟨hinv1, hAL1, hLA1⟩ := arcInv_erase g inL outL a hinv hamem'
      have hnxt : g.arcNextIn a = rest.head? := by
        have hl := hencN.links
        rw [hin] at hl
        obtain ⟨_, h2, _⟩ := hl
        rw [h2]
        cases rest <;> rfl
      have hrest : (inL n).erase a = rest := by
        rw [hin]
        exact List.erase_cons_head a rest
      have hfi1 : (eraseArcG g a).firstIn n = rest.head? := by
        have hh := (hinv1.inEnc n).hd
        rw [hrest] at hh
        exact hh
      rw [hfi]
      rw [show eraseFanIn g (some a) (f + 1)
            = eraseFanIn (eraseArcG g a) (g.arcNextIn a) f from rfl]
      rw [hnxt, ← hfi1]
      obtain ⟨inL2, outL2, ihInv, ihNil, ihInSub, ihOutSub, ihInBack, ihOutBack,
        ihDel, ihLive⟩ :=
        ih (eraseArcG g a) (fun m => (inL m).erase a) (fun m => (outL m).erase a)
          n f hinv1 hrest (by simp at hlen; omega)
      have hanolive : a ∉ (eraseArcG g a).liveArcs := by
        rw [hLA1]
        intro hc
        exact (hinv.liveNd.mem_erase_iff.mp hc).1 rfl
      have hanolive2 :
          a ∉ (eraseFanIn (eraseArcG g a) ((eraseArcG g a).firstIn n) f).liveArcs :=
        fun hc => hanolive (ihLive a hc)
      refine ⟨inL2, outL2, ihInv, ihNil, ?_, ?_, ?_, ?_, ?_, ?_⟩
      · exact fun m x hx => List.mem_of_mem_erase (ihInSub m x hx)
      · exact fun m x hx => List.mem_of_mem_erase (ihOutSub m x hx)
      · intro m x hx
        by_cases hxa : x = a
        · right
          rw [hxa]
          exact hanolive2
        · exact ihInBack m x ((List.mem_erase_of_ne hxa).mpr hx)
      · intro m x hx
        by_cases hxa : x = a
        · right
          rw [hxa]
          exact hanolive2
        · exact ihOutBack m x ((List.mem_erase_of_ne hxa).mpr hx)
      · intro x hx
        rcases List.mem_cons.mp hx with hxa | hxr
        · rw [hxa]
          exact hanolive2
        · exact ihDel x hxr
      · intro x hx
        have h1 := ihLive x hx
        rw [hLA1] at h1
        exact List.mem_of_mem_erase h1

/-- Running the fan-out removal loop over node `n`'s whole chain. -/
theorem eraseFanOut_run :
    ∀ (c : List Nat) (g : CG) (inL outL : Nat → List Nat) (n : Nat) (fuel : Nat),
      ArcInv g inL outL → outL n = c → c.length ≤ fuel →
      ∃ inL2 outL2,
        ArcInv (eraseFanOut g (g.firstOut n) fuel) inL2 outL2 ∧
        outL2 n = [] ∧
        (∀ m x, x ∈ inL2 m → x ∈ inL m) ∧
        (∀ m x, x ∈ outL2 m → x ∈ outL m) ∧
        (∀ m x, x ∈ inL m →
          x ∈ inL2 m ∨ x ∉ (eraseFanOut g (g.firstOut n) fuel).liveArcs) ∧
        (∀ m x, x ∈ outL m →
          x ∈ outL2 m ∨ x ∉ (eraseFanOut g (g.firstOut n) fuel).liveArcs) ∧
        (∀ x ∈ c, x ∉ (eraseFanOut g (g.firstOut n) fuel).liveArcs) ∧
        (∀ x, x ∈ (eraseFanOut g (g.firstOut n) fuel).liveArcs → x ∈ g.liveArcs) := by
  intro c
  induction c with
  | nil =>
    intro g inL outL n fuel hinv hout _
    have hfo : g.firstOut n = none := by
      rw [(hinv.outEnc n).hd, hout]
      rfl
    rw [hfo, eraseFanOut_none]
    exact ⟨inL, outL, hinv, hout, fun m x h => h, fun m x h => h,
      fun m x h => Or.inl h, fun m x h => Or.inl h,
      by intro x hx; simp at hx, fun x h => h⟩
  | cons a rest ih =>
    intro g inL outL n fuel hinv hout hlen
    cases fuel with
    | zero => simp at hlen
    | succ f =>
      have hencN := hinv.outEnc n
      have hfo : g.firstOut n = some a := by
        rw [hencN.hd, hout]
        rfl
      have hamem : a ∈ outL n := by
        rw [hout]
        exact List.mem_cons_self a rest
      have hamem' : a ∈ inL (g.arcTgt a) := hinv.outCorr n a hamem
      obtain ⟨hinv1, hAL1, hLA1⟩ := arcInv_erase g inL outL a hinv hamem'
      have hnxt : g.arcNextOut a = rest.head? := by
        have hl := hencN.links
        rw [hout] at hl
        obtain ⟨_, h2, _⟩ := hl
        rw [h2]
        cases rest <;> rfl
      have hrest : (outL n).erase a = rest := by
        rw [hout]
        exact List.erase_cons_head a rest
      have hfo1 : (eraseArcG g a).firstOut n = rest.head? := by
        have hh := (hinv1.outEnc n).hd
        rw [hrest] at hh
        exact hh
      rw [hfo]
      rw [show eraseFanOut g (some a) (f + 1)
            = eraseFanOut (eraseArcG g a) (g.arcNextOut a) f from rfl]
      rw [hnxt, ← hfo1]
      obtain ⟨inL2, outL2, ihInv, ihNil, ihInSub, ihOutSub, ihInBack, ihOutBack,
        ihDel, ihLive⟩ :=
        ih (eraseArcG g a) (fun m => (inL m).erase a) (fun m => (outL m).erase a)
          n f hinv1 hrest (by simp at hlen; omega)
      have hanolive : a ∉ (eraseArcG g a).liveArcs := by
        rw [hLA1]
        intro hc
        exact (hinv.liveNd.mem_erase_iff.mp hc).1 rfl
      have hanolive2 :
          a ∉ (eraseFanOut (eraseArcG g a) ((eraseArcG g a).firstOut n) f).liveArcs :=
        fun hc => hanolive (ihLive a hc)
      refine ⟨inL2, outL2, ihInv, ihNil, ?_, ?_, ?_, ?_, ?_, ?_⟩
      · exact fun m x hx => List.mem_of_mem_erase (ihInSub m x hx)
      · exact fun m x hx => List.mem_of_mem_erase (ihOutSub m x hx)
      · intro m x hx
        by_cases hxa : x = a
        · right
          rw [hxa]
          exact hanolive2
        · exact ihInBack m x ((List.mem_erase_of_ne hxa).mpr hx)
      · intro m x hx
        by_cases hxa : x = a
        · right
          rw [hxa]
          exact hanolive2
        · exact ihOutBack m x ((List.mem_erase_of_ne hxa).mpr hx)
      · intro x hx
        rcases List.mem_cons.mp hx with hxa | hxr
        · rw [hxa]
          exact hanolive2
        · exact ihDel x hxr
      · intro x hx
        have h1 := ihLive x hx
        rw [hLA1] at h1
        exact List.mem_of_mem_erase h1

/-- Step 1 of `erase(ComputeOperator&)` touches only the sequence links. -/
theorem spliceNodeG_frame (g : CG) (n : Nat) :
    (spliceNodeG g n).firstIn = g.firstIn ∧
    (spliceNodeG g n).firstOut = g.firstOut ∧
    (spliceNodeG g n).arcSrc = g.arcSrc ∧
    (spliceNodeG g n).arcTgt = g.arcTgt ∧
    (spliceNodeG g n).arcPrevIn = g.arcPrevIn ∧
    (spliceNodeG g n).arcNextIn = g.arcNextIn ∧
    (spliceNodeG g n).arcPrevOut = g.arcPrevOut ∧
    (spliceNodeG g n).arcNextOut = g.arcNextOut ∧
    (spliceNodeG g n).arcList = g.arcList ∧
    (spliceNodeG g n).liveArcs = g.liveArcs ∧
    (spliceNodeG g n).nodeList = g.nodeList := by
  unfold spliceNodeG
  simp only []
  repeat' split
  all_goals exact ⟨rfl, rfl, rfl, rfl, rfl, rfl, rfl, rfl, rfl, rfl, rfl⟩

theorem arcInv_splice (g : CG) (n : Nat) (inL outL : Nat → List Nat)
    (hinv : ArcInv g inL outL) : ArcInv (spliceNodeG g n) inL outL := by
  obtain ⟨hFI, hFO, hS, hT, hPI, hNI, hPO, hNO, hAL, hLA, _⟩ := spliceNodeG_frame g n
  refine ⟨?_, ?_, ?_, ?_, ?_, ?_, ?_, ?_, ?_, ?_⟩
  · intro m
    rw [hNI, hPI, hFI]
    exact hinv.inEnc m
  · intro m
    rw [hNO, hPO, hFO]
    exact hinv.outEnc m
  · intro m x hx
    rw [hT]
    exact hinv.inOwn m x hx
  · intro m x hx
    rw [hS]
    exact hinv.outOwn m x hx
  · intro m x hx
    rw [hS]
    exact hinv.inCorr m x hx
  · intro m x hx
    rw [hT]
    exact hinv.outCorr m x hx
  · intro m x hx
    rw [hAL]
    exact hinv.inArc m x hx
  · intro m x hx
    rw [hAL]
    exact hinv.outArc m x hx
  · rw [hAL]
    exact hinv.arcNd
  · rw [hLA]
    exact hinv.liveNd

/-- C6: `erase(ComputeOperator&)` cascades: every arc of the node's fan-in
chain and fan-out chain is deleted (gone from the live set), the node is
unlinked from the global sequence with `m_pNodeHead`/`m_pNodeRear` fixed
up (the doubly-linked encoding of the remaining nodes holds afterwards),
and re-traversing any surviving node's fan-in or fan-out chain finds no
arc whose source or target is the erased node. -/
theorem eraseNode_cascade (g : CG) (l : List Nat) (n : Nat)
    (inL outL : Nat → List Nat)
    (henc : SeqEnc g l) (hn : n ∈ l) (hinv : ArcInv g inL outL) :
    (∀ x ∈ inL n ++ outL n, x ∉ (eraseNodeG g n).liveArcs) ∧
    SeqEnc (eraseNodeG g n) (l.erase n) ∧
    (∀ m, ∀ x ∈ chainIn (eraseNodeG g n) m,
      ¬ ((eraseNodeG g n).arcSrc x = n) ∧ ¬ ((eraseNodeG g n).arcTgt x = n)) ∧
    (∀ m, ∀ x ∈ chainOut (eraseNodeG g n) m,
      ¬ ((eraseNodeG g n).arcSrc x = n) ∧ ¬ ((eraseNodeG g n).arcTgt x = n)) := by
  set gB := spliceNodeG g n with hgB
  set gC := eraseFanIn gB (gB.firstIn n) gB.arcList.length with hgC
  set gD := eraseFanOut gC (gC.firstOut n) gC.arcList.length with hgD
  have hE : eraseNodeG g n = { gD with nodeList := gD.nodeList.erase n } := rfl
  have hinvB : ArcInv gB inL outL := arcInv_splice g n inL outL hinv
  have hlenIn : (inL n).length ≤ gB.arcList.length := by
    rw [hgB, (spliceNodeG_frame g n).2.2.2.2.2.2.2.2.1]
    exact nodup_subset_length (hinv.inEnc n).nd (fun x hx => hinv.inArc n x hx)
  obtain ⟨inL1, outL1, hinv1, hin1nil, hin1sub, hout1sub, hin1back, hout1back,
    hdel1, hlive1⟩ :=
    eraseFanIn_run (inL n) gB inL outL n gB.arcList.length hinvB rfl hlenIn
  rw [← hgC] at hinv1 hin1back hout1back hdel1 hlive1
  have hlenOut : (outL1 n).length ≤ gC.arcList.length :=
    nodup_subset_length (hinv1.outEnc n).nd (fun x hx => hinv1.outArc n x hx)
  obtain ⟨inL2, outL2, hinv2, hout2nil, hin2sub, hout2sub, hin2back, hout2back,
    hdel2, hlive2⟩ :=
    eraseFanOut_run (outL1 n) gC inL1 outL1 n gC.arcList.length hinv1 rfl hlenOut
  rw [← hgD] at hinv2 hin2back hout2back hdel2 hlive2
  have hliveE : (eraseNodeG g n).liveArcs = gD.liveArcs := by rw [hE]
  have htgtD : gD.arcTgt = g.arcTgt := by
    rw [hgD, (eraseFanOut_frame gC gC.arcList.length (gC.firstOut n)).2.2.2.2.2.2.1,
      hgC, (eraseFanIn_frame gB gB.arcList.length (gB.firstIn n)).2.2.2.2.2.2.1,
      hgB, (spliceNodeG_frame g n).2.2.2.1]
  have hsrcD : gD.arcSrc = g.arcSrc := by
    rw [hgD, (eraseFanOut_frame gC gC.arcList.length (gC.firstOut n)).2.2.2.2.2.1,
      hgC, (eraseFanIn_frame gB gB.arcList.length (gB.firstIn n)).2.2.2.2.2.1,
      hgB, (spliceNodeG_frame g n).2.2.1]
  have hin2nil : inL2 n = [] := by
    cases hcc : inL2 n with
    | nil => rfl
    | cons z zs =>
      have hz : z ∈ inL1 n := hin2sub n z (by rw [hcc]; exact List.mem_cons_self z zs)
      rw [hin1nil] at hz
      simp at hz
  -- part 1: every chain arc of `n` is deleted
  have hdead : ∀ x ∈ inL n ++ outL n, x ∉ gD.liveArcs := by
    intro x hx
    rcases List.mem_append.mp hx with hxin | hxout
    · intro hc
      exact hdel1 x hxin (hlive2 x hc)
    · rcases hout1back n x hxout with hx1 | hx1
      · exact hdel2 x hx1
      · intro hc
        exact hx1 (hlive2 x hc)
  -- chains of the final state are the invariant lists
  have hchainIn : ∀ m, chainIn (eraseNodeG g n) m = inL2 m := by
    intro m
    have hfields : (eraseNodeG g n).arcNextIn = gD.arcNextIn ∧
        (eraseNodeG g n).firstIn = gD.firstIn ∧
        (eraseNodeG g n).arcList = gD.arcList := by
      rw [hE]
      exact ⟨rfl, rfl, rfl⟩
    unfold chainIn
    rw [hfields.1, hfields.2.1, hfields.2.2]
    have hprv : (eraseNodeG g n).arcPrevIn = gD.arcPrevIn := by rw [hE]
    exact chainEnc_walk gD.arcNextIn gD.arcPrevIn (gD.firstIn m) (inL2 m)
      gD.arcList.length (hinv2.inEnc m)
      (nodup_subset_length (hinv2.inEnc m).nd (fun x hx => hinv2.inArc m x hx))
  have hchainOut : ∀ m, chainOut (eraseNodeG g n) m = outL2 m := by
    intro m
    have hfields : (eraseNodeG g n).arcNextOut = gD.arcNextOut ∧
        (eraseNodeG g n).firstOut = gD.firstOut ∧
        (eraseNodeG g n).arcList = gD.arcList := by
      rw [hE]
      exact ⟨rfl, rfl, rfl⟩
    unfold chainOut
    rw [hfields.1, hfields.2.1, hfields.2.2]
    exact chainEnc_walk gD.arcNextOut gD.arcPrevOut (gD.firstOut m) (outL2 m)
      gD.arcList.length (hinv2.outEnc m)
      (nodup_subset_length (hinv2.outEnc m).nd (fun x hx => hinv2.outArc m x hx))
  have hsrcE : (eraseNodeG g n).arcSrc = g.arcSrc := by
    rw [hE]
    exact hsrcD
  have htgtE : (eraseNodeG g n).arcTgt = g.arcTgt := by
    rw [hE]
    exact htgtD
  refine ⟨?_, seqEnc_eraseNode g l n henc hn, ?_, ?_⟩
  · intro x hx
    rw [hliveE]
    exact hdead x hx
  · intro m x hx
    rw [hchainIn m] at hx
    constructor
    · intro hc
      have hcorr := hinv2.inCorr m x hx
      rw [hsrcE] at hc
      rw [← hsrcD] at hc
      rw [hc, hout2nil] at hcorr
      simp at hcorr
    · intro hc
      have hown := hinv2.inOwn m x hx
      rw [htgtE] at hc
      rw [← htgtD] at hc
      rw [hc] at hown
      rw [← hown] at hx
      rw [hin2nil] at hx
      simp at hx
  · intro m x hx
    rw [hchainOut m] at hx
    constructor
    · intro hc
      have hown := hinv2.outOwn m x hx
      rw [hsrcE] at hc
      rw [← hsrcD] at hc
      rw [hc] at hown
      rw [← hown] at hx
      rw [hout2nil] at hx
      simp at hx
    · intro hc
      have hcorr := hinv2.outCorr m x hx
      rw [htgtE] at hc
      rw [← htgtD] at hc
      rw [hc] at hcorr
      have hsub := hin2sub n x hcorr
      rw [hin1nil] at hsub
      simp at hsub

/-- A concrete state for the cascade: nodes `0 → 1` with one arc `7`. -/
def gC6 : CG :=
  { head := some 0, rear := some 1,
    prevN := fun m => if m = 1 then some 0 else none,
    nextN := fun m => if m = 0 then some 1 else none,
    firstIn := fun m => if m = 1 then some 7 else none,
    firstOut := fun m => if m = 0 then some 7 else none,
    arcSrc := fun _ => 0, arcTgt := fun _ => 1,
    arcPrevIn := fun _ => none, arcNextIn := fun _ => none,
    arcPrevOut := fun _ => none, arcNextOut := fun _ => none,
    nodeList := [0, 1], arcList := [7], liveArcs := [7],
    inputs := fun _ => [], outputs := fun _ => [], users := fun _ => [] }

def inLW : Nat → List Nat := fun m => if m = 1 then [7] else []

def outLW : Nat → List Nat := fun m => if m = 0 then [7] else []

theorem seqEncW : SeqEnc gC6 [0, 1] :=
  ⟨by decide, rfl, rfl, ⟨rfl, rfl, rfl, rfl, trivial⟩, List.Perm.refl _⟩

theorem arcInvW : ArcInv gC6 inLW outLW := by
  refine ⟨?_, ?_, ?_, ?_, ?_, ?_, ?_, ?_, by decide, by decide⟩
  · intro m
    by_cases hm : m = 1
    · subst hm
      exact ⟨by decide, rfl, ⟨rfl, rfl, trivial⟩⟩
    · refine ⟨?_, ?_, ?_⟩
      · simp [inLW, hm]
      · simp [gC6, inLW, hm]
      · simp [inLW, hm, Seg]
  · intro m
    by_cases hm : m = 0
    · subst hm
      exact ⟨by decide, rfl, ⟨rfl, rfl, trivial⟩⟩
    · refine ⟨?_, ?_, ?_⟩
      · simp [outLW, hm]
      · simp [gC6, outLW, hm]
      · simp [outLW, hm, Seg]
  · intro m x hx
    by_cases hm : m = 1
    · subst hm
      have hx7 : x = 7 := by simpa [inLW] using hx
      subst hx7
      rfl
    · simp [inLW, hm] at hx
  · intro m x hx
    by_cases hm : m = 0
    · subst hm
      have hx7 : x = 7 := by simpa [outLW] using hx
      subst hx7
      rfl
    · simp [outLW, hm] at hx
  · intro m x hx
    by_cases hm : m = 1
    · subst hm
      have hx7 : x = 7 := by simpa [inLW] using hx
      subst hx7
      simp [outLW, gC6]
    · simp [inLW, hm] at hx
  · intro m x hx
    by_cases hm : m = 0
    · subst hm
      have hx7 : x = 7 := by simpa [outLW] using hx
      subst hx7
      simp [inLW, gC6]
    · simp [outLW, hm] at hx
  · intro m x hx
    by_cases hm : m = 1
    · subst hm
      have hx7 : x = 7 := by simpa [inLW] using hx
      subst hx7
      decide
    · simp [inLW, hm] at hx
  · intro m x hx
    by_cases hm : m = 0
    · subst hm
      have hx7 : x = 7 := by simpa [outLW] using hx
      subst hx7
      decide
    · simp [outLW, hm] at hx

theorem eraseNode_cascade_witness :
    (∀ x ∈ inLW 1 ++ outLW 1, x ∉ (eraseNodeG gC6 1).liveArcs) ∧
    SeqEnc (eraseNodeG gC6 1) ([0, 1].erase 1) ∧
    (∀ m, ∀ x ∈ chainIn (eraseNodeG gC6 1) m,
      ¬ ((eraseNodeG gC6 1).arcSrc x = 1) ∧ ¬ ((eraseNodeG gC6 1).arcTgt x = 1)) ∧
    (∀ m, ∀ x ∈ chainOut (eraseNodeG gC6 1) m,
      ¬ ((eraseNodeG gC6 1).arcSrc x = 1) ∧ ¬ ((eraseNodeG gC6 1).arcTgt x = 1)) :=
  eraseNode_cascade gC6 [0, 1] 1 inLW outLW seqEncW (by decide) arcInvW

end ONNC
